import Mathlib

/-!
Verification development for the blind-charging redaction annotation engine.

The definitions below are shallow embeddings of the Python modules
blind_charging/broken_range.py, blind_charging/source_text.py,
blind_charging/masker.py, blind_charging/annotation.py,
blind_charging/individual.py, blind_charging/person.py and
blind_charging/officer.py.  Python machine integers are modelled as Int
(Python ints are unbounded), character offsets as Nat where the source only
ever passes non-negative offsets, Python sets as Finset, raised exceptions as
Option / Except results.  External collaborators that the specification
excludes (the spacy NLP pipeline and the fuzzy string-distance library) enter
only as explicit oracle parameters.
-/

/-! ## broken_range.py -/

/-- Indexing helper: idx R k is Python R[k] for 0 <= k < len(R) (default 0
out of range; all uses in proofs are guarded by bounds). -/
def idx (R : List Int) (k : Nat) : Int :=
  R.getD k 0

/-- Number of elements strictly below v (used to characterise the binary
search in find_index). -/
def cntLT : List Int → Int → Nat
  | [], _ => 0
  | a :: R, v => (if a < v then 1 else 0) + cntLT R v

/-- Number of elements at most v. -/
def cntLE : List Int → Int → Nat
  | [], _ => 0
  | a :: R, v => (if a ≤ v then 1 else 0) + cntLE R v

/-- Executable strict sortedness of the boundary list (adjacent comparison). -/
def chainLt : List Int → Bool
  | a :: b :: R => decide (a < b) && chainLt (b :: R)
  | _ => true

/-- Index formulation of strict sortedness. -/
def sortedI (R : List Int) : Prop :=
  ∀ i j : Nat, i < j → j < R.length → idx R i < idx R j

/-- Binary search loop of broken_range._find_index.  The Python loop
terminates because high - low shrinks; the fuel argument is an upper bound on
the number of iterations (high - low suffices) and exists only to make the
function structurally recursive, it never runs out when called by find_index. -/
def findLoopF (R : List Int) (v : Int) : Nat → Nat → Nat → Nat × Nat
  | 0, low, high => (low, high)
  | fuel + 1, low, high =>
    if 1 < high - low then
      let mid := low + (high - low) / 2
      if v < idx R mid then findLoopF R v fuel low mid
      else findLoopF R v fuel mid high
    else (low, high)

/-- Embedding of broken_range._find_index: index of the smallest member >= v
(> v when inside is true), or len(R) when there is none. -/
def find_index (R : List Int) (v : Int) (inside : Bool) : Nat :=
  if R.isEmpty then 0
  else
    let p := findLoopF R v (R.length - 0) 0 R.length
    let i0 := if v ≤ idx R p.1 then p.1 else p.2
    if i0 = R.length then i0
    else if inside && (idx R i0 == v) then i0 + 1
    else i0

/-- Embedding of BrokenRange.addspan.  The Python method raises ValueError
for an invalid extent (end <= start); that is the none result.  The Python
local end_idx can become -1 (prepend case), so it is computed in Int. -/
def addspan (R : List Int) (s e : Int) : Option (List Int) :=
  if e ≤ s then none
  else
    let si0 := find_index R s false
    let si := if si0 % 2 = 1 then si0 - 1 else si0
    if si = R.length then some (R ++ [s, e])
    else
      let ei0 : Int := (find_index R (e + 1) false : Nat)
      let ei : Int := if ei0 % 2 = 0 then ei0 - 1 else ei0
      if ei < 0 then some (s :: e :: R)
      else
        let bs := min s (idx R si)
        let be := max e (idx R ei.toNat)
        some (R.take si ++ bs :: be :: R.drop (ei.toNat + 1))

/-- Embedding of BrokenRange.contains. -/
def contains (R : List Int) (v : Int) : Bool :=
  let i0 := find_index R v false
  if i0 = R.length then false
  else if i0 % 2 = 0 then v == idx R i0
  else v != idx R i0

/-- Embedding of BrokenRange.overlaps; none is the ValueError on an invalid
extent. -/
def overlaps (R : List Int) (s e : Int) : Option Bool :=
  if e ≤ s then none
  else
    let si := find_index R s true
    let ei := find_index R e false
    some (decide (si % 2 = 1) || decide (si ≠ ei))

/-- Sequential application of addspan calls, failing as soon as one call
raises. -/
def applyAdds (R : List Int) : List (Int × Int) → Option (List Int)
  | [] => some R
  | (s, e) :: ops => do
    let R1 ← addspan R s e
    applyAdds R1 ops

/-- Invariant of the boundary list: strictly increasing, even length. -/
def brInv (R : List Int) : Prop :=
  chainLt R = true ∧ R.length % 2 = 0

/-- Semantics of the boundary list: x is covered when it falls in the
half-open span started at some even index and closed at the following odd
index. -/
def semMemP (R : List Int) (x : Int) : Prop :=
  ∃ i : Nat, 2 * i + 1 < R.length ∧ idx R (2 * i) ≤ x ∧ x < idx R (2 * i + 1)

/-! ## Basic lemmas about idx, cnt and sortedness -/

@[simp] theorem idx_nil (k : Nat) : idx [] k = 0 := by
  simp [idx]

@[simp] theorem idx_zero (a : Int) (R : List Int) : idx (a :: R) 0 = a := rfl

@[simp] theorem idx_succ (a : Int) (R : List Int) (k : Nat) :
    idx (a :: R) (k + 1) = idx R k := by
  simp [idx]

theorem cntLT_le_length (R : List Int) (v : Int) : cntLT R v ≤ R.length := by
  induction R with
  | nil => simp [cntLT]
  | cons a R ih => simp only [cntLT, List.length_cons]; split <;> omega

theorem cntLE_le_length (R : List Int) (v : Int) : cntLE R v ≤ R.length := by
  induction R with
  | nil => simp [cntLE]
  | cons a R ih => simp only [cntLE, List.length_cons]; split <;> omega

theorem cntLT_le_cntLE (R : List Int) (v : Int) : cntLT R v ≤ cntLE R v := by
  induction R with
  | nil => simp [cntLT, cntLE]
  | cons a R ih =>
    simp only [cntLT, cntLE]
    by_cases h : a < v
    · rw [if_pos h, if_pos (le_of_lt h)]; omega
    · rw [if_neg h]; split <;> omega

theorem sortedI_nil : sortedI [] := by
  intro i j hij hj
  simp at hj

theorem sortedI_cons (a : Int) (R : List Int) :
    sortedI (a :: R) ↔ sortedI R ∧ ∀ j, j < R.length → a < idx R j := by
  constructor
  · intro h
    refine ⟨fun i j hij hj => ?_, fun j hj => ?_⟩
    · have h2 := h (i + 1) (j + 1) (by omega) (by simp; omega)
      simpa using h2
    · have h2 := h 0 (j + 1) (by omega) (by simp; omega)
      simpa using h2
  · rintro ⟨h1, h2⟩ i j hij hj
    match i, j with
    | 0, j + 1 =>
      have := h2 j (by simp at hj; omega)
      simpa using this
    | i + 1, j + 1 =>
      have := h1 i j (by omega) (by simp at hj; omega)
      simpa using this

theorem chainLt_iff (R : List Int) : chainLt R = true ↔ sortedI R := by
  induction R with
  | nil => simp [chainLt]; exact sortedI_nil
  | cons a R ih =>
    cases R with
    | nil =>
      simp [chainLt]
      intro i j hij hj
      simp at hj
      exact absurd hij (by omega)
    | cons b T =>
      have hstep : chainLt (a :: b :: T) = (decide (a < b) && chainLt (b :: T)) := rfl
      rw [hstep, sortedI_cons]
      constructor
      · intro h
        have hab : a < b := by
          have := (Bool.and_eq_true _ _).mp h
          simpa using this.1
        have hs : sortedI (b :: T) := ih.mp ((Bool.and_eq_true _ _).mp h).2
        refine ⟨hs, fun j hj => ?_⟩
        cases j with
        | zero => simpa using hab
        | succ k =>
          have := hs 0 (k + 1) (by omega) hj
          simp at this
          simpa using lt_trans hab this
      · rintro ⟨h1, h2⟩
        have hab : a < b := by simpa using h2 0 (by simp)
        rw [Bool.and_eq_true]
        exact ⟨by simpa using hab, ih.mpr h1⟩

theorem cntLT_eq_zero_of (R : List Int) (v : Int)
    (h : ∀ j, j < R.length → v ≤ idx R j) : cntLT R v = 0 := by
  induction R with
  | nil => simp [cntLT]
  | cons a R ih =>
    have ha : v ≤ a := by simpa using h 0 (by simp)
    have h0 : cntLT R v = 0 := by
      refine ih ?_
      intro j hj
      have := h (j + 1) (by simp; omega)
      simpa using this
    simp only [cntLT, if_neg (not_lt.mpr ha)]
    omega

theorem cntLE_eq_zero_of (R : List Int) (v : Int)
    (h : ∀ j, j < R.length → v < idx R j) : cntLE R v = 0 := by
  induction R with
  | nil => simp [cntLE]
  | cons a R ih =>
    have ha : v < a := by simpa using h 0 (by simp)
    have h0 : cntLE R v = 0 := by
      refine ih ?_
      intro j hj
      have := h (j + 1) (by simp; omega)
      simpa using this
    simp only [cntLE, if_neg (not_le.mpr ha)]
    omega

theorem cntLT_iff (R : List Int) (v : Int) (hs : sortedI R) :
    ∀ k, k < R.length → (idx R k < v ↔ k < cntLT R v) := by
  induction R with
  | nil => intro k hk; simp at hk
  | cons a R ih =>
    obtain ⟨h1, h2⟩ := (sortedI_cons a R).mp hs
    intro k hk
    by_cases hav : a < v
    · have hcnt : cntLT (a :: R) v = 1 + cntLT R v := by simp [cntLT, hav]
      cases k with
      | zero => simp [hav, hcnt]
      | succ m =>
        have := ih h1 m (by simp at hk; omega)
        simp only [idx_succ, hcnt]
        omega
    · have hzero : cntLT R v = 0 := by
        apply cntLT_eq_zero_of
        intro j hj
        have := h2 j hj
        omega
      have hcnt : cntLT (a :: R) v = 0 := by simp [cntLT, hav, hzero]
      rw [hcnt]
      cases k with
      | zero => simpa using hav
      | succ m =>
        have := h2 m (by simp at hk; omega)
        simp only [idx_succ]
        constructor
        · intro hlt; omega
        · intro hlt; omega

theorem cntLE_iff (R : List Int) (v : Int) (hs : sortedI R) :
    ∀ k, k < R.length → (idx R k ≤ v ↔ k < cntLE R v) := by
  induction R with
  | nil => intro k hk; simp at hk
  | cons a R ih =>
    obtain ⟨h1, h2⟩ := (sortedI_cons a R).mp hs
    intro k hk
    by_cases hav : a ≤ v
    · have hcnt : cntLE (a :: R) v = 1 + cntLE R v := by simp [cntLE, hav]
      cases k with
      | zero => simp [hav, hcnt]
      | succ m =>
        have := ih h1 m (by simp at hk; omega)
        simp only [idx_succ, hcnt]
        omega
    · have hzero : cntLE R v = 0 := by
        apply cntLE_eq_zero_of
        intro j hj
        have := h2 j hj
        omega
      have hcnt : cntLE (a :: R) v = 0 := by simp [cntLE, hav, hzero]
      rw [hcnt]
      cases k with
      | zero => simpa using hav
      | succ m =>
        have := h2 m (by simp at hk; omega)
        simp only [idx_succ]
        constructor
        · intro hlt; omega
        · intro hlt; omega

theorem cntLT_eq_of (R : List Int) (v : Int) (hs : sortedI R) (c : Nat)
    (hc : c ≤ R.length)
    (h1 : ∀ k, k < c → idx R k < v)
    (h2 : ∀ k, c ≤ k → k < R.length → v ≤ idx R k) : cntLT R v = c := by
  have hle := cntLT_le_length R v
  by_contra hne
  rcases Nat.lt_or_ge (cntLT R v) c with h | h
  · have hk := h1 (cntLT R v) h
    have := (cntLT_iff R v hs (cntLT R v) (by omega)).mp hk
    omega
  · have hcl : c < cntLT R v := by omega
    have hx := (cntLT_iff R v hs c (by omega)).mpr hcl
    have := h2 c (le_refl c) (by omega)
    omega

theorem cntLE_eq_of (R : List Int) (v : Int) (hs : sortedI R) (c : Nat)
    (hc : c ≤ R.length)
    (h1 : ∀ k, k < c → idx R k ≤ v)
    (h2 : ∀ k, c ≤ k → k < R.length → v < idx R k) : cntLE R v = c := by
  have hle := cntLE_le_length R v
  by_contra hne
  rcases Nat.lt_or_ge (cntLE R v) c with h | h
  · have hk := h1 (cntLE R v) h
    have := (cntLE_iff R v hs (cntLE R v) (by omega)).mp hk
    omega
  · have hcl : c < cntLE R v := by omega
    have hx := (cntLE_iff R v hs c (by omega)).mpr hcl
    have := h2 c (le_refl c) (by omega)
    omega

/-! ## Correctness of the binary search -/

theorem findLoopF_step_left (R : List Int) (v : Int) (fuel low high : Nat)
    (h : 1 < high - low) (hv : v < idx R (low + (high - low) / 2)) :
    findLoopF R v (fuel + 1) low high =
      findLoopF R v fuel low (low + (high - low) / 2) := by
  simp [findLoopF, h, hv]

theorem findLoopF_step_right (R : List Int) (v : Int) (fuel low high : Nat)
    (h : 1 < high - low) (hv : ¬ v < idx R (low + (high - low) / 2)) :
    findLoopF R v (fuel + 1) low high =
      findLoopF R v fuel (low + (high - low) / 2) high := by
  simp [findLoopF, h, hv]

theorem findLoopF_exit (R : List Int) (v : Int) (fuel low high : Nat)
    (h : ¬ 1 < high - low) :
    findLoopF R v (fuel + 1) low high = (low, high) := by
  simp [findLoopF, h]

theorem findLoopF_spec (R : List Int) (v : Int) (hs : sortedI R) :
    ∀ fuel low high, high - low ≤ fuel → low < high → high ≤ R.length →
    (low = 0 ∨ idx R low ≤ v) →
    (∀ k, high ≤ k → k < R.length → v < idx R k) →
    (findLoopF R v fuel low high).2 = (findLoopF R v fuel low high).1 + 1 ∧
    (findLoopF R v fuel low high).2 ≤ high ∧
    ((findLoopF R v fuel low high).1 = 0 ∨ idx R (findLoopF R v fuel low high).1 ≤ v) ∧
    (∀ k, (findLoopF R v fuel low high).2 ≤ k → k < R.length →
      v < idx R k) := by
  intro fuel
  induction fuel with
  | zero =>
    intro low high hfuel hlh hhl hB hA
    exact absurd hlh (by omega)
  | succ fuel ih =>
    intro low high hfuel hlh hhl hB hA
    by_cases hgap : 1 < high - low
    · have hmid1 : low < low + (high - low) / 2 := by omega
      have hmid2 : low + (high - low) / 2 < high := by omega
      by_cases hv : v < idx R (low + (high - low) / 2)
      · rw [findLoopF_step_left R v fuel low high hgap hv]
        have hA2 : ∀ k, low + (high - low) / 2 ≤ k → k < R.length →
            v < idx R k := by
          intro k hk hklen
          rcases Nat.eq_or_lt_of_le hk with heq | hlt
          · rw [← heq]; exact hv
          · exact lt_trans hv (hs _ k hlt hklen)
        have hr := ih low (low + (high - low) / 2) (by omega) hmid1
          (by omega) hB hA2
        exact ⟨hr.1, le_trans hr.2.1 (le_of_lt hmid2), hr.2.2⟩
      · rw [findLoopF_step_right R v fuel low high hgap hv]
        exact ih (low + (high - low) / 2) high (by omega) hmid2 hhl
          (Or.inr (by omega)) hA
    · rw [findLoopF_exit R v fuel low high hgap]
      have hhigh : high = low + 1 := by omega
      exact ⟨by omega, by omega, hB, fun k hk hklen => hA k (by omega) hklen⟩

theorem find_index_eq (R : List Int) (v : Int) (inside : Bool)
    (hs : sortedI R) :
    find_index R v inside = if inside then cntLE R v else cntLT R v := by
  unfold find_index
  by_cases hR : R.isEmpty
  · have : R = [] := by cases R <;> simp_all
    subst this
    simp [cntLT, cntLE]
  · have hlen : 0 < R.length := by cases R <;> simp_all
    rw [if_neg hR]
    have hspec := findLoopF_spec R v hs (R.length - 0) 0 R.length (by omega)
      (by omega) (le_refl _) (Or.inl rfl)
      (fun k hk hk2 => absurd hk (by omega))
    obtain ⟨h21, hhigh, hB, hA⟩ := hspec
    set p := findLoopF R v (R.length - 0) 0 R.length with hp
    have hp1len : p.1 < R.length := by omega
    have hcnt : cntLT R v = (if v ≤ idx R p.1 then p.1 else p.2) := by
      by_cases hvle : v ≤ idx R p.1
      · rw [if_pos hvle]
        apply cntLT_eq_of R v hs p.1 (by omega)
        · intro k hk
          rcases hB with h0 | hle
          · omega
          · have hveq : v = idx R p.1 := le_antisymm hvle hle
            rw [hveq]
            exact hs k p.1 hk hp1len
        · intro k hk hklen
          rcases Nat.eq_or_lt_of_le hk with heq | hlt
          · rw [← heq]; exact hvle
          · exact le_of_lt (hA k (by omega) hklen)
      · rw [if_neg hvle]
        apply cntLT_eq_of R v hs p.2 (by omega)
        · intro k hk
          rcases Nat.eq_or_lt_of_le (Nat.le_of_lt_succ (by omega : k < p.1 + 1))
            with heq | hlt
          · rw [heq]; omega
          · exact lt_trans (hs k p.1 hlt hp1len) (by omega)
        · intro k hk hklen
          exact le_of_lt (hA k hk hklen)
    by_cases hi0 : (if v ≤ idx R p.1 then p.1 else p.2) = R.length
    · rw [if_pos hi0]
      have hLT : cntLT R v = R.length := by omega
      have hLE : cntLE R v = R.length :=
        le_antisymm (cntLE_le_length R v) (hLT ▸ cntLT_le_cntLE R v)
      cases inside <;> simp [hLT, hLE, hi0]
    · rw [if_neg hi0]
      have hi0len : (if v ≤ idx R p.1 then p.1 else p.2) < R.length := by
        have h1 := cntLT_le_length R v
        omega
      cases inside with
      | false => simp [← hcnt]
      | true =>
        simp only [Bool.true_and]
        by_cases hveq : idx R (if v ≤ idx R p.1 then p.1 else p.2) == v
        · rw [if_pos hveq]
          have hveq2 : idx R (cntLT R v) = v := by
            rw [hcnt]; exact eq_of_beq hveq
          have hLE : cntLE R v = cntLT R v + 1 := by
            apply cntLE_eq_of R v hs (cntLT R v + 1) (by omega)
            · intro k hk
              rcases Nat.eq_or_lt_of_le (Nat.le_of_lt_succ hk) with heq | hlt
              · rw [heq, hveq2]
              · exact le_of_lt ((cntLT_iff R v hs k (by omega)).mpr hlt)
            · intro k hk hklen
              have := hs (cntLT R v) k (by omega) hklen
              omega
          simp [hLE, ← hcnt]
        · rw [if_neg hveq]
          have hvne : idx R (cntLT R v) ≠ v := by
            rw [hcnt]; exact fun h => hveq (by simp [h])
          have hcl : cntLT R v < R.length := by omega
          have hvlt : v < idx R (cntLT R v) := by
            have h1 : ¬ idx R (cntLT R v) < v := by
              intro hcon
              have := (cntLT_iff R v hs (cntLT R v) hcl).mp hcon
              omega
            rcases lt_or_eq_of_le (not_lt.mp h1) with h | h
            · exact h
            · exact absurd h.symm hvne
          have hLE : cntLE R v = cntLT R v := by
            apply cntLE_eq_of R v hs (cntLT R v) (by omega)
            · intro k hk
              exact le_of_lt ((cntLT_iff R v hs k (by omega)).mpr hk)
            · intro k hk hklen
              rcases Nat.eq_or_lt_of_le hk with heq | hlt
              · rw [← heq]; exact hvlt
              · exact lt_trans hvlt (hs (cntLT R v) k hlt hklen)
          simp [hLE, ← hcnt]

/-! ## Index lemmas for list surgery -/

theorem idx_append_lt (A B : List Int) (k : Nat) (hk : k < A.length) :
    idx (A ++ B) k = idx A k := by
  induction A generalizing k with
  | nil => simp at hk
  | cons a A ih =>
    cases k with
    | zero => rfl
    | succ m =>
      simp only [List.cons_append, idx_succ]
      exact ih m (by simp at hk; omega)

theorem idx_append_ge (A B : List Int) (k : Nat) (hk : A.length ≤ k) :
    idx (A ++ B) k = idx B (k - A.length) := by
  induction A generalizing k with
  | nil => simp
  | cons a A ih =>
    cases k with
    | zero => simp at hk
    | succ m =>
      simp only [List.cons_append, idx_succ, List.length_cons]
      rw [ih m (by simp at hk; omega)]
      congr 1
      omega

theorem idx_take (R : List Int) (n k : Nat) (hk : k < n) :
    idx (R.take n) k = idx R k := by
  induction R generalizing n k with
  | nil => simp
  | cons a R ih =>
    cases n with
    | zero => omega
    | succ m =>
      cases k with
      | zero => rfl
      | succ j => simpa using ih m j (by omega)

theorem idx_drop (R : List Int) (n k : Nat) :
    idx (R.drop n) k = idx R (n + k) := by
  induction n generalizing R with
  | zero => simp
  | succ m ih =>
    cases R with
    | nil => simp
    | cons a R =>
      simp only [List.drop_succ_cons]
      rw [ih R]
      have : m + 1 + k = (m + k) + 1 := by omega
      rw [this, idx_succ]

theorem cntLT_mono_v (R : List Int) (v w : Int) (hvw : v ≤ w) :
    cntLT R v ≤ cntLT R w := by
  induction R with
  | nil => simp [cntLT]
  | cons a R ih =>
    simp only [cntLT]
    by_cases h : a < v
    · rw [if_pos h, if_pos (lt_of_lt_of_le h hvw)]; omega
    · rw [if_neg h]; split <;> omega

/-! ## Behaviour of addspan, by branch -/

theorem addspan_append_spec (R : List Int) (s e : Int)
    (hsorted : sortedI R) (heven : R.length % 2 = 0) (hse : s < e)
    (hall : ∀ k, k < R.length → idx R k < s) :
    brInv (R ++ [s, e]) ∧ (∀ x, semMemP R x → semMemP (R ++ [s, e]) x) ∧
    (∀ x, s ≤ x → x < e → semMemP (R ++ [s, e]) x) := by
  have hlen2 : (R ++ [s, e]).length = R.length + 2 := by simp
  have hg1 : ∀ k, k < R.length → idx (R ++ [s, e]) k = idx R k :=
    fun k hk => idx_append_lt R [s, e] k hk
  have hg2 : idx (R ++ [s, e]) R.length = s := by
    rw [idx_append_ge R [s, e] R.length (le_refl _)]
    simp
  have hg3 : idx (R ++ [s, e]) (R.length + 1) = e := by
    rw [idx_append_ge R [s, e] (R.length + 1) (by omega)]
    have : R.length + 1 - R.length = 1 := by omega
    rw [this]
    rfl
  refine ⟨⟨(chainLt_iff _).mpr ?_, by omega⟩, ?_, ?_⟩
  · intro i j hij hjlen
    rw [hlen2] at hjlen
    rcases Nat.lt_or_ge j R.length with hj | hj
    · rw [hg1 i (by omega), hg1 j hj]
      exact hsorted i j hij hj
    · rcases Nat.eq_or_lt_of_le hj with hj2 | hj2
      · rw [← hj2, hg2]
        rw [hg1 i (by omega)]
        exact hall i (by omega)
      · have hj3 : j = R.length + 1 := by omega
        rw [hj3, hg3]
        rcases Nat.lt_or_ge i R.length with hi | hi
        · rw [hg1 i hi]
          exact lt_trans (hall i hi) hse
        · have hi2 : i = R.length := by omega
          rw [hi2, hg2]
          exact hse
  · rintro x ⟨i, hilen, hix, hxi⟩
    refine ⟨i, by omega, ?_, ?_⟩
    · rw [hg1 (2 * i) (by omega)]; exact hix
    · rw [hg1 (2 * i + 1) (by omega)]; exact hxi
  · intro x hsx hxe
    refine ⟨R.length / 2, by omega, ?_, ?_⟩
    · have h2 : 2 * (R.length / 2) = R.length := by omega
      rw [h2, hg2]; exact hsx
    · have h2 : 2 * (R.length / 2) + 1 = R.length + 1 := by omega
      rw [h2, hg3]; exact hxe

theorem addspan_prepend_spec (R : List Int) (s e : Int)
    (hsorted : sortedI R) (heven : R.length % 2 = 0) (hse : s < e)
    (hall : ∀ k, k < R.length → e < idx R k) :
    brInv (s :: e :: R) ∧ (∀ x, semMemP R x → semMemP (s :: e :: R) x) ∧
    (∀ x, s ≤ x → x < e → semMemP (s :: e :: R) x) := by
  refine ⟨⟨(chainLt_iff _).mpr ?_, by simp; omega⟩, ?_, ?_⟩
  · rw [sortedI_cons]
    constructor
    · rw [sortedI_cons]
      exact ⟨hsorted, hall⟩
    · intro j hj
      cases j with
      | zero => simpa using hse
      | succ k =>
        simp only [idx_succ]
        exact lt_trans hse (hall k (by simp at hj; omega))
  · rintro x ⟨i, hilen, hix, hxi⟩
    refine ⟨i + 1, by simp; omega, ?_, ?_⟩
    · have h2 : 2 * (i + 1) = (2 * i) + 1 + 1 := by omega
      rw [h2, idx_succ, idx_succ]
      exact hix
    · have h2 : 2 * (i + 1) + 1 = (2 * i + 1) + 1 + 1 := by omega
      rw [h2, idx_succ, idx_succ]
      exact hxi
  · intro x hsx hxe
    exact ⟨0, by simp, by simpa using hsx, by simpa using hxe⟩

theorem addspan_splice_spec (R : List Int) (s e : Int) (si ein : Nat)
    (hsorted : sortedI R) (heven : R.length % 2 = 0) (hse : s < e)
    (hsi_even : si % 2 = 0) (hsi_lt : si < R.length)
    (hei_odd : ein % 2 = 1) (hei_lt : ein < R.length)
    (hsiei : si ≤ ein + 1)
    (hlow : ∀ k, k < si → idx R k < s)
    (hhigh : ∀ k, ein < k → k < R.length → e < idx R k) :
    brInv (R.take si ++ min s (idx R si) :: max e (idx R ein) :: R.drop (ein + 1)) ∧
    (∀ x, semMemP R x →
      semMemP (R.take si ++ min s (idx R si) :: max e (idx R ein) :: R.drop (ein + 1)) x) ∧
    (∀ x, s ≤ x → x < e →
      semMemP (R.take si ++ min s (idx R si) :: max e (idx R ein) :: R.drop (ein + 1)) x) := by
  set bs := min s (idx R si) with hbs
  set be := max e (idx R ein) with hbe
  set R2 := R.take si ++ bs :: be :: R.drop (ein + 1) with hR2
  have htklen : (R.take si).length = si := by
    rw [List.length_take]; omega
  have hlen2 : R2.length = si + 2 + (R.length - (ein + 1)) := by
    rw [hR2]
    simp only [List.length_append, List.length_cons, List.length_drop, htklen]
    omega
  have hG1 : ∀ k, k < si → idx R2 k = idx R k := by
    intro k hk
    rw [hR2, idx_append_lt _ _ k (by rw [htklen]; omega), idx_take R si k hk]
  have hG2a : idx R2 si = bs := by
    rw [hR2, idx_append_ge _ _ si (by rw [htklen])]
    have h0 : si - (R.take si).length = 0 := by rw [htklen]; omega
    rw [h0]
    simp [idx]
  have hG2b : idx R2 (si + 1) = be := by
    rw [hR2, idx_append_ge _ _ (si + 1) (by rw [htklen]; omega)]
    have h0 : si + 1 - (R.take si).length = 1 := by rw [htklen]; omega
    rw [h0]
    simp [idx]
  have hG3 : ∀ k, si + 2 ≤ k → idx R2 k = idx R (ein + 1 + (k - (si + 2))) := by
    intro k hk
    rw [hR2, idx_append_ge _ _ k (by rw [htklen]; omega)]
    have h0 : k - (R.take si).length = (k - si - 2) + 1 + 1 := by rw [htklen]; omega
    rw [h0, idx_succ, idx_succ, idx_drop]
    congr 1
  have hFs : ∀ k, k < si → idx R k < bs := by
    intro k hk
    exact lt_min (hlow k hk) (hsorted k si hk hsi_lt)
  have hbsbe : bs < be :=
    lt_of_le_of_lt (min_le_left _ _) (lt_of_lt_of_le hse (le_max_left _ _))
  have hFe : ∀ k, ein < k → k < R.length → be < idx R k := by
    intro k hk hklen
    exact max_lt (hhigh k hk hklen) (hsorted ein k hk hklen)
  have hbs_le : ∀ k, si ≤ k → k < R.length → bs ≤ idx R k := by
    intro k hk hklen
    rcases Nat.eq_or_lt_of_le hk with heq | hlt
    · rw [← heq]; exact min_le_right _ _
    · exact le_trans (min_le_right _ _) (le_of_lt (hsorted si k hlt hklen))
  have hbe_ge : ∀ k, k ≤ ein → idx R k ≤ be := by
    intro k hk
    rcases Nat.eq_or_lt_of_le hk with heq | hlt
    · rw [heq]; exact le_max_right _ _
    · exact le_trans (le_of_lt (hsorted k ein hlt hei_lt)) (le_max_right _ _)
  have hH3 : ∀ k, si + 2 ≤ k → k < R2.length → be < idx R2 k := by
    intro k hk hklen
    rw [hG3 k hk]
    rw [hlen2] at hklen
    exact hFe _ (by omega) (by omega)
  refine ⟨⟨(chainLt_iff _).mpr ?_, ?_⟩, ?_, ?_⟩
  · intro i j hij hjlen
    rw [hlen2] at hjlen
    rcases Nat.lt_or_ge j si with hj | hj
    · rw [hG1 i (by omega), hG1 j hj]
      exact hsorted i j hij (by omega)
    · by_cases hja : j = si
      · rw [hja, hG2a, hG1 i (by omega)]
        exact hFs i (by omega)
      · by_cases hjb : j = si + 1
        · rw [hjb, hG2b]
          rcases Nat.lt_or_ge i si with hi | hi
          · rw [hG1 i hi]
            exact lt_trans (hFs i hi) hbsbe
          · have hieq : i = si := by omega
            rw [hieq, hG2a]
            exact hbsbe
        · have hj3 : si + 2 ≤ j := by omega
          rcases Nat.lt_or_ge i si with hi | hi
          · rw [hG1 i hi]
            exact lt_trans (hFs i hi)
              (lt_trans hbsbe (hH3 j hj3 (by rw [hlen2]; omega)))
          · by_cases hia : i = si
            · rw [hia, hG2a]
              exact lt_trans hbsbe (hH3 j hj3 (by rw [hlen2]; omega))
            · by_cases hib : i = si + 1
              · rw [hib, hG2b]
                exact hH3 j hj3 (by rw [hlen2]; omega)
              · have hi3 : si + 2 ≤ i := by omega
                rw [hG3 i hi3, hG3 j hj3]
                exact hsorted _ _ (by omega) (by omega)
  · rw [hlen2]; omega
  · rintro x ⟨i, hilen, hix, hxi⟩
    rcases Nat.lt_or_ge (2 * i + 1) si with hc1 | hc1
    · refine ⟨i, by rw [hlen2]; omega, ?_, ?_⟩
      · rw [hG1 _ (by omega)]; exact hix
      · rw [hG1 _ hc1]; exact hxi
    · rcases Nat.lt_or_ge (2 * i) (ein + 1) with hc2 | hc2
      · have hm1 : si ≤ 2 * i := by omega
        have hm2 : 2 * i + 1 ≤ ein := by omega
        refine ⟨si / 2, by rw [hlen2]; omega, ?_, ?_⟩
        · have h2 : 2 * (si / 2) = si := by omega
          rw [h2, hG2a]
          exact le_trans (hbs_le (2 * i) hm1 (by omega)) hix
        · have h2 : 2 * (si / 2) + 1 = si + 1 := by omega
          rw [h2, hG2b]
          exact lt_of_lt_of_le hxi (hbe_ge (2 * i + 1) hm2)
      · refine ⟨(si + 2 + (2 * i - (ein + 1))) / 2, by rw [hlen2]; omega, ?_, ?_⟩
        · have h2 : 2 * ((si + 2 + (2 * i - (ein + 1))) / 2) =
              si + 2 + (2 * i - (ein + 1)) := by omega
          rw [h2, hG3 _ (by omega)]
          have h3 : ein + 1 + (si + 2 + (2 * i - (ein + 1)) - (si + 2)) = 2 * i := by
            omega
          rw [h3]; exact hix
        · have h2 : 2 * ((si + 2 + (2 * i - (ein + 1))) / 2) + 1 =
              si + 2 + (2 * i - (ein + 1)) + 1 := by omega
          rw [h2, hG3 _ (by omega)]
          have h3 : ein + 1 + (si + 2 + (2 * i - (ein + 1)) + 1 - (si + 2)) =
              2 * i + 1 := by omega
          rw [h3]; exact hxi
  · intro x hsx hxe
    refine ⟨si / 2, by rw [hlen2]; omega, ?_, ?_⟩
    · have h2 : 2 * (si / 2) = si := by omega
      rw [h2, hG2a]
      exact le_trans (min_le_left _ _) hsx
    · have h2 : 2 * (si / 2) + 1 = si + 1 := by omega
      rw [h2, hG2b]
      exact lt_of_lt_of_le hxe (le_max_left _ _)

theorem find_index_false_eq (R : List Int) (v : Int) (hs : sortedI R) :
    find_index R v false = cntLT R v := by
  rw [find_index_eq R v false hs]
  rfl

theorem find_index_true_eq (R : List Int) (v : Int) (hs : sortedI R) :
    find_index R v true = cntLE R v := by
  rw [find_index_eq R v true hs]
  rfl

theorem addspan_spec (R : List Int) (s e : Int) (R2 : List Int)
    (hinv : brInv R) (hadd : addspan R s e = some R2) :
    brInv R2 ∧ s < e ∧
    (∀ x, semMemP R x → semMemP R2 x) ∧
    (∀ x, s ≤ x → x < e → semMemP R2 x) := by
  have hsorted : sortedI R := (chainLt_iff R).mp hinv.1
  have heven : R.length % 2 = 0 := hinv.2
  by_cases hse : e ≤ s
  · rw [addspan, if_pos hse] at hadd
    exact absurd hadd (by simp)
  have hse2 : s < e := by omega
  simp only [addspan, find_index_false_eq R s hsorted,
    find_index_false_eq R (e + 1) hsorted] at hadd
  rw [if_neg hse] at hadd
  have hc1l := cntLT_le_length R s
  have hm2l := cntLT_le_length R (e + 1)
  have hc1m2 : cntLT R s ≤ cntLT R (e + 1) :=
    cntLT_mono_v R s (e + 1) (by omega)
  set c1 := cntLT R s with hc1def
  set m2 := cntLT R (e + 1) with hm2def
  set si := if c1 % 2 = 1 then c1 - 1 else c1 with hsidef
  set eiI : Int := if (m2 : Int) % 2 = 0 then (m2 : Int) - 1 else (m2 : Int)
    with heidef
  have hsi1 : si ≤ c1 ∧ c1 ≤ si + 1 ∧ si % 2 = 0 := by
    rw [hsidef]
    by_cases hodd : c1 % 2 = 1
    · rw [if_pos hodd]; omega
    · rw [if_neg hodd]; omega
  split at hadd
  · -- append branch: insertion point past every block
    rename_i hA
    have heq := Option.some.inj hadd
    subst heq
    have hall : ∀ k, k < R.length → idx R k < s := by
      intro k hk
      exact (cntLT_iff R s hsorted k hk).mpr (by omega)
    obtain ⟨hinv2, hmono, hadds⟩ :=
      addspan_append_spec R s e hsorted heven hse2 hall
    exact ⟨hinv2, hse2, hmono, hadds⟩
  · split at hadd
    · -- prepend branch: span below every block
      rename_i hA hB
      have hm0 : m2 = 0 := by
        rw [heidef] at hB
        by_cases hev : ((m2 : Int)) % 2 = 0
        · rw [if_pos hev] at hB; omega
        · rw [if_neg hev] at hB; omega
      have heq := Option.some.inj hadd
      subst heq
      have hall : ∀ k, k < R.length → e < idx R k := by
        intro k hk
        have h1 := cntLT_iff R (e + 1) hsorted k hk
        have h2 : ¬ idx R k < e + 1 := by
          intro hcon
          have := h1.mp hcon
          omega
        omega
      obtain ⟨hinv2, hmono, hadds⟩ :=
        addspan_prepend_spec R s e hsorted heven hse2 hall
      exact ⟨hinv2, hse2, hmono, hadds⟩
    · -- splice branch
      rename_i hA hB
      have heq := Option.some.inj hadd
      subst heq
      have hsi_lt : si < R.length := by
        rcases Nat.lt_or_ge si R.length with h | h
        · exact h
        · exact absurd (by omega : si = R.length) hA
      have hein : eiI.toNat % 2 = 1 ∧ eiI.toNat < R.length ∧
          m2 ≤ eiI.toNat + 1 ∧ eiI.toNat ≤ m2 := by
        rw [heidef]
        rw [heidef] at hB
        by_cases hev : ((m2 : Int)) % 2 = 0
        · rw [if_pos hev]
          rw [if_pos hev] at hB
          omega
        · rw [if_neg hev]
          omega
      have hlow : ∀ k, k < si → idx R k < s := by
        intro k hk
        exact (cntLT_iff R s hsorted k (by omega)).mpr (by omega)
      have hhigh : ∀ k, eiI.toNat < k → k < R.length → e < idx R k := by
        intro k hk hklen
        have h1 := cntLT_iff R (e + 1) hsorted k hklen
        have h2 : ¬ idx R k < e + 1 := by
          intro hcon
          have := h1.mp hcon
          omega
        omega
      obtain ⟨hinv2, hmono, hadds⟩ :=
        addspan_splice_spec R s e si eiI.toNat hsorted heven hse2
          hsi1.2.2 hsi_lt hein.1 hein.2.1 (by omega) hlow hhigh
      exact ⟨hinv2, hse2, hmono, hadds⟩

theorem cntLE_le_cntLT_of_lt (R : List Int) (a b : Int) (h : a < b) :
    cntLE R a ≤ cntLT R b := by
  induction R with
  | nil => simp [cntLE, cntLT]
  | cons c R ih =>
    simp only [cntLE, cntLT]
    by_cases hc : c ≤ a
    · rw [if_pos hc, if_pos (by omega)]; omega
    · rw [if_neg hc]; split <;> omega

theorem contains_iff (R : List Int) (x : Int) (hinv : brInv R) :
    contains R x = true ↔ semMemP R x := by
  have hsorted : sortedI R := (chainLt_iff R).mp hinv.1
  have heven : R.length % 2 = 0 := hinv.2
  have hcl := cntLT_le_length R x
  unfold contains
  rw [find_index_false_eq R x hsorted]
  set c := cntLT R x with hcdef
  by_cases hc : c = R.length
  · rw [if_pos hc]
    simp only [Bool.false_eq_true, false_iff]
    rintro ⟨i, hl, hx1, hx2⟩
    have := (cntLT_iff R x hsorted (2 * i + 1) hl).mpr (by omega)
    omega
  · have hclen : c < R.length := by omega
    rw [if_neg hc]
    have hlow : ∀ k, k < c → idx R k < x := fun k hk =>
      (cntLT_iff R x hsorted k (by omega)).mpr (by omega)
    have hhigh : ∀ k, c ≤ k → k < R.length → x ≤ idx R k := by
      intro k hk hklen
      by_contra hcon
      have := (cntLT_iff R x hsorted k hklen).mp (by omega)
      omega
    by_cases hpar : c % 2 = 0
    · rw [if_pos hpar, beq_iff_eq]
      constructor
      · intro hxe
        refine ⟨c / 2, by omega, ?_, ?_⟩
        · have h2 : 2 * (c / 2) = c := by omega
          rw [h2]; omega
        · have h2 : 2 * (c / 2) + 1 = c + 1 := by omega
          rw [h2]
          have := hsorted c (c + 1) (by omega) (by omega)
          omega
      · rintro ⟨i, hl, hx1, hx2⟩
        by_contra hne
        have hcx : x < idx R c :=
          lt_of_le_of_ne (hhigh c (le_refl c) hclen) hne
        have h2ic : 2 * i < c := by
          by_contra hcon
          have hge : c ≤ 2 * i := by omega
          rcases Nat.eq_or_lt_of_le hge with heq2 | hlt2
          · rw [← heq2] at hx1; omega
          · have := hsorted c (2 * i) hlt2 (by omega)
            omega
        have := hlow (2 * i + 1) (by omega)
        omega
    · rw [if_neg hpar, bne_iff_ne]
      constructor
      · intro hne
        have hcx : x < idx R c :=
          lt_of_le_of_ne (hhigh c (le_refl c) hclen) hne
        refine ⟨(c - 1) / 2, ?_, ?_, ?_⟩
        · have h2 : 2 * ((c - 1) / 2) + 1 = c := by omega
          omega
        · have h2 : 2 * ((c - 1) / 2) = c - 1 := by omega
          rw [h2]
          have := hlow (c - 1) (by omega)
          omega
        · have h2 : 2 * ((c - 1) / 2) + 1 = c := by omega
          rw [h2]; exact hcx
      · rintro ⟨i, hl, hx1, hx2⟩
        intro hxe
        have hgt : c < 2 * i + 1 := by
          by_contra hcon
          have hle2 : 2 * i + 1 ≤ c := by omega
          rcases Nat.eq_or_lt_of_le hle2 with heq2 | hlt2
          · rw [heq2] at hx2; omega
          · have := hsorted (2 * i + 1) c hlt2 hclen
            omega
        have h2ge : c < 2 * i := by omega
        have := hsorted c (2 * i) h2ge (by omega)
        omega

theorem overlaps_iff (R : List Int) (a b : Int) (hinv : brInv R) (hab : a < b) :
    overlaps R a b = some true ↔ ∃ x, a ≤ x ∧ x < b ∧ semMemP R x := by
  have hsorted : sortedI R := (chainLt_iff R).mp hinv.1
  have heven : R.length % 2 = 0 := hinv.2
  unfold overlaps
  rw [if_neg (by omega : ¬ b ≤ a)]
  rw [find_index_true_eq R a hsorted, find_index_false_eq R b hsorted]
  set sa := cntLE R a with hsadef
  set eb := cntLT R b with hebdef
  have hsal := cntLE_le_length R a
  have hebl := cntLT_le_length R b
  have hsaeb : sa ≤ eb := cntLE_le_cntLT_of_lt R a b hab
  have hlow_a : ∀ k, k < sa → idx R k ≤ a := fun k hk =>
    (cntLE_iff R a hsorted k (by omega)).mpr (by omega)
  have hhigh_a : ∀ k, sa ≤ k → k < R.length → a < idx R k := by
    intro k hk hklen
    by_contra hcon
    have := (cntLE_iff R a hsorted k hklen).mp (by omega)
    omega
  have hlow_b : ∀ k, k < eb → idx R k < b := fun k hk =>
    (cntLT_iff R b hsorted k (by omega)).mpr (by omega)
  have hhigh_b : ∀ k, eb ≤ k → k < R.length → b ≤ idx R k := by
    intro k hk hklen
    by_contra hcon
    have := (cntLT_iff R b hsorted k hklen).mp (by omega)
    omega
  simp only [Option.some.injEq, Bool.or_eq_true, decide_eq_true_eq]
  constructor
  · rintro (hodd | hne)
    · refine ⟨a, le_refl a, hab, (sa - 1) / 2, ?_, ?_, ?_⟩
      · have h2 : 2 * ((sa - 1) / 2) + 1 = sa := by omega
        omega
      · have h2 : 2 * ((sa - 1) / 2) = sa - 1 := by omega
        rw [h2]
        exact hlow_a (sa - 1) (by omega)
      · have h2 : 2 * ((sa - 1) / 2) + 1 = sa := by omega
        rw [h2]
        exact hhigh_a sa (le_refl sa) (by omega)
    · have hsalt : sa < eb := by omega
      have hsalen : sa < R.length := by omega
      by_cases hodd : sa % 2 = 1
      · refine ⟨a, le_refl a, hab, (sa - 1) / 2, ?_, ?_, ?_⟩
        · have h2 : 2 * ((sa - 1) / 2) + 1 = sa := by omega
          omega
        · have h2 : 2 * ((sa - 1) / 2) = sa - 1 := by omega
          rw [h2]
          exact hlow_a (sa - 1) (by omega)
        · have h2 : 2 * ((sa - 1) / 2) + 1 = sa := by omega
          rw [h2]
          exact hhigh_a sa (le_refl sa) hsalen
      · refine ⟨idx R sa, le_of_lt (hhigh_a sa (le_refl sa) hsalen),
          hlow_b sa hsalt, sa / 2, ?_, ?_, ?_⟩
        · have h2 : 2 * (sa / 2) + 1 = sa + 1 := by omega
          omega
        · have h2 : 2 * (sa / 2) = sa := by omega
          rw [h2]
        · have h2 : 2 * (sa / 2) + 1 = sa + 1 := by omega
          rw [h2]
          exact hsorted sa (sa + 1) (by omega) (by omega)
  · rintro ⟨x, hax, hxb, i, hl, h1, h2⟩
    by_contra hcon
    push_neg at hcon
    obtain ⟨hev, heq⟩ := hcon
    have h2i : 2 * i < sa := by
      by_contra hcon2
      have := hhigh_b (2 * i) (by omega) (by omega)
      omega
    have := hlow_a (2 * i + 1) (by omega)
    omega

theorem brInv_nil : brInv [] := ⟨rfl, rfl⟩

theorem applyAdds_spec (ops : List (Int × Int)) (R R2 : List Int)
    (hinv : brInv R) (happ : applyAdds R ops = some R2) :
    brInv R2 ∧ (∀ x, semMemP R x → semMemP R2 x) := by
  induction ops generalizing R with
  | nil =>
    have h2 : R = R2 := Option.some.inj happ
    subst h2
    exact ⟨hinv, fun x h => h⟩
  | cons op ops ih =>
    obtain ⟨s, e⟩ := op
    simp only [applyAdds] at happ
    cases hadd : addspan R s e with
    | none => rw [hadd] at happ; simp at happ
    | some R1 =>
      rw [hadd] at happ
      simp at happ
      obtain ⟨hinv1, _, hmono1, _⟩ := addspan_spec R s e R1 hinv hadd
      obtain ⟨hinv2, hmono2⟩ := ih R1 hinv1 happ
      exact ⟨hinv2, fun x h => hmono2 x (hmono1 x h)⟩

/-! ## annotation.py and source_text.py -/

/-- Embedding of annotation.Redaction.  The Python attribute named end is
called end_ here because end is a Lean keyword.  Offsets are Nat: every
redaction the engine builds starts from non-negative regex or entity
offsets. -/
structure Redaction where
  start : Nat
  end_ : Nat
  text : String
  info : String
  color : Option String
deriving DecidableEq, Repr

/-- Error taxonomy of source_text.py / broken_range.py: OverlapError and the
ValueError raised for an invalid extent. -/
inductive RErr where
  | overlap
  | invalidExtent
deriving DecidableEq, Repr

/-- Mutable state of a SourceText: the working text view and the cleared
interval set.  The NLP annotations are external oracles and enter the
functions below as parameters. -/
structure STState where
  text : List Char
  cleared : List Int
deriving DecidableEq, Repr

/-- Character of the working text at an offset (all source accesses are in
bounds; the default is a space, which the proofs never rely on for in-bounds
positions). -/
def charAt (text : List Char) (k : Nat) : Char :=
  text.getD k ' '

/-- Embedding of source_text._clamp_to_word_boundary, up=True.  The Python
while loop moves the index at most once per character, so text.length fuel
is enough. -/
def clampUpF (text : List Char) : Nat → Nat → Nat
  | 0, index => index
  | fuel + 1, index =>
    if 0 < index ∧ index < text.length - 1 ∧ (charAt text index).isWhitespace
    then clampUpF text fuel (index + 1)
    else index

def clampUp (text : List Char) (index : Nat) : Nat :=
  clampUpF text text.length index

/-- Embedding of source_text._clamp_to_word_boundary, up=False. -/
def clampDownF (text : List Char) : Nat → Nat → Nat
  | 0, index => index
  | fuel + 1, index =>
    if 0 < index ∧ index < text.length - 1 ∧ (charAt text index).isWhitespace
    then clampDownF text fuel (index - 1)
    else index

def clampDown (text : List Char) (index : Nat) : Nat :=
  clampDownF text text.length index

/-- Embedding of source_text._capitalize: upper-case the first alphabetic
character, e.g. a placeholder in brackets. -/
def pyCapitalizeFirstAlpha : List Char → List Char
  | [] => []
  | c :: rest =>
    if c.isAlpha then c.toUpper :: rest else c :: pyCapitalizeFirstAlpha rest

/-- Loop body of source_text._get_indefinite_article_for_text: the first
alphabetic character decides by vowel orthography, a digit seen first decides
by being 8, everything else keeps scanning. -/
def needsEpenthesis : List Char → Bool
  | [] => false
  | c :: rest =>
    if c.isAlpha then decide (c.toLower ∈ ['a', 'e', 'i', 'o', 'u'])
    else if c.isDigit then c == '8'
    else needsEpenthesis rest

/-- Embedding of source_text._get_indefinite_article_for_text. -/
def get_indefinite_article_for_text (text : List Char) : List Char :=
  if needsEpenthesis text then ['a', 'n'] else ['a']

/-- Python str.isupper used on the scanned article: at least one cased
character and no cased character lower-case. -/
def pyCased (c : Char) : Bool := c.isUpper || c.isLower

def pyIsUpper (s : List Char) : Bool :=
  s.any pyCased && s.all fun c => !(pyCased c) || c.isUpper

def headIsUpper : List Char → Bool
  | c :: _ => c.isUpper
  | [] => false

/-- Python str.capitalize: first character upper, the rest lower. -/
def pyCapitalize : List Char → List Char
  | [] => []
  | c :: rest => c.toUpper :: rest.map Char.toLower

/-- State of the backward scan loop in source_text._correct_indef_article.
words and terms are kept most-recent-first, so the Python scanned_words[-1]
is the head here. -/
structure ScanSt where
  words : List (List Char)
  terms : List Nat
  space : List Char
  scanning : Bool
deriving DecidableEq, Repr

/-- One pass of the scan loop over an explicit descending (position,
character) list; the Bool marks that the Python break was taken. -/
def scanFold : List (Nat × Char) → ScanSt × Bool → ScanSt × Bool
  | [], st => st
  | (p, c) :: rest, (st, b) =>
    if b then (st, b)
    else if c = ' ' then
      if st.words.length = 2 then (st, true)
      else scanFold rest (⟨st.words, st.terms, c :: st.space, false⟩, false)
    else
      let st1 := if st.scanning then st
        else ⟨[] :: st.words, (p + 1) :: st.terms, st.space, true⟩
      let newWords : List (List Char) :=
        match st1.words with
        | w :: ws => (c :: w) :: ws
        | [] => [[c]]
      scanFold rest (⟨newWords, st1.terms, st1.space, st1.scanning⟩, false)

/-- Descending segment of scanned positions: ptr, ptr-1, ..., fuel entries. -/
def seg (text : List Char) : Nat → Nat → List (Nat × Char)
  | 0, _ => []
  | fuel + 1, ptr => (ptr, charAt text ptr) :: seg text fuel (ptr - 1)

/-- Embedding of source_text._correct_indef_article.  tdoc is doc.text, text
the replacement, index the insertion point; the scan window is the Python
range(index, max(0, index-4)-1, -1). -/
def correct_indef_article (tdoc : List Char) (text : List Char)
    (index : Nat) : List Char × Nat :=
  let endPtr := index - 4
  let st := (scanFold (seg tdoc (index - endPtr + 1) index)
    (⟨[], [], [], false⟩, false)).1
  match st.words, st.terms with
  | w :: _, t :: _ =>
    if st.words.length < 2 ∨
        ¬ (w.map Char.toLower = ['a'] ∨ w.map Char.toLower = ['a', 'n']) then
      (text, index)
    else
      let ca := get_indefinite_article_for_text text
      let ca2 := if pyIsUpper w then ca.map Char.toUpper
        else if headIsUpper w then pyCapitalize ca
        else ca
      (ca2 ++ st.space ++ text, t - w.length)
  | _, _ => (text, index)

/-- Embedding of SourceText.clear_span with the default one-character
placeholder.  In Python the text splice happens before addspan, so on an
invalid extent the exception leaves a half-updated object; the claims only
concern the success path, modelled here as all-or-nothing. -/
def clear_span (st : STState) (s e : Nat) : Option STState :=
  match addspan st.cleared (s : Int) (e : Int) with
  | none => none
  | some c2 =>
    some ⟨st.text.take s ++ List.replicate (e - s) '*' ++ st.text.drop e, c2⟩

/-- Embedding of SourceText.can_redact; the ValueError overlaps raises for an
invalid extent propagates. -/
def can_redact (st : STState) (s e : Nat) : Except RErr Bool :=
  match overlaps st.cleared (s : Int) (e : Int) with
  | none => .error .invalidExtent
  | some b => .ok (!b)

/-- Final step of SourceText.redact: clear the span and build the Redaction
record, with the ValueError of an invalid clamped extent propagating. -/
def redactFinish (st : STState) (s2 e1 : Nat) (t2 : List Char)
    (info : String) : Except RErr (Redaction × STState) :=
  match clear_span st s2 e1 with
  | none => .error .invalidExtent
  | some st2 => .ok (⟨s2, e1, String.mk t2, info, none⟩, st2)

/-- Success path of SourceText.redact after the overlap gate: clamping,
article correction, capitalization (sentStart is the spacy _is_sent_start
oracle), then clear_span and the Redaction record. -/
def redactBody (sentStart : List Char → Nat → Bool) (st : STState)
    (start stop : Nat) (text : String)
    (clamp auto_capitalize autocorrect_article : Bool) (info : String) :
    Except RErr (Redaction × STState) :=
  let s1 := if clamp then clampUp st.text start else start
  let e1 := if clamp then clampDown st.text (stop - 1) + 1 else stop
  let p := if autocorrect_article then correct_indef_article st.text text.data s1
    else (text.data, s1)
  let t2 := if auto_capitalize && sentStart st.text p.2
    then pyCapitalizeFirstAlpha p.1 else p.1
  redactFinish st p.2 e1 t2 info

/-- Embedding of SourceText.redact.  With force the Python short-circuit
skips can_redact entirely; otherwise an overlap raises OverlapError and an
invalid extent propagates the ValueError. -/
def redact (sentStart : List Char → Nat → Bool) (st : STState)
    (start stop : Nat) (text : String)
    (clamp auto_capitalize autocorrect_article force : Bool) (info : String) :
    Except RErr (Redaction × STState) :=
  if force then
    redactBody sentStart st start stop text clamp auto_capitalize
      autocorrect_article info
  else
    match can_redact st start stop with
    | .error er => .error er
    | .ok true =>
      redactBody sentStart st start stop text clamp auto_capitalize
        autocorrect_article info
    | .ok false => .error .overlap

/-! ## masker.py: merge_annotations and the rule pipeline -/

/-- Stable insertion into a descending-by-start list: r passes over elements
with strictly larger start and lands before the first element whose start is
not larger.  Any two stable sorts agree, so foldr insertion reproduces the
Python list.sort with reverse=True on the start key. -/
def insDesc (r : Redaction) : List Redaction → List Redaction
  | [] => [r]
  | x :: xs => if r.start < x.start then x :: insDesc r xs else r :: x :: xs

def sortDesc : List Redaction → List Redaction
  | [] => []
  | x :: xs => insDesc x (sortDesc xs)

/-- Python slice narrative[l:r] for 0 <= l, r. -/
def pySlice (narr : List Char) (l r : Nat) : List Char :=
  (narr.take r).drop l

/-- Truthiness of re.match(r"\s", s): the first character is whitespace. -/
def matchWs : List Char → Bool
  | c :: _ => c.isWhitespace
  | [] => false

/-- Loop body of masker.merge_annotations: the pair is (emitted list,
current end_annotation); absorbing a candidate moves the start down,
otherwise the current annotation is emitted. -/
def mergeStep (narr : List Char) (acc : List Redaction × Redaction)
    (a : Redaction) : List Redaction × Redaction :=
  let e := acc.2
  if e.start - a.end_ ≤ 1 ∧ e.text = a.text ∧ e.info = a.info ∧
      e.info = "person" ∧ matchWs (pySlice narr a.end_ e.start) then
    (acc.1, ⟨a.start, e.end_, e.text, e.info, e.color⟩)
  else (acc.1 ++ [e], a)

/-- Embedding of masker.merge_annotations. -/
def merge_annotations (anns : List Redaction) (narr : List Char) :
    List Redaction :=
  if anns.length ≤ 1 then anns
  else
    match sortDesc anns with
    | [] => []
    | e0 :: rest =>
      let p := rest.foldl (mergeStep narr) ([], e0)
      p.1 ++ [p.2]

/-- Walk step following the specification wording for the merger: absorb
exactly when the gap is one character, that character is whitespace, the
replacement texts coincide and both annotations are person annotations; the
absorbed result covers the union span and keeps the higher fields. -/
def mergeStepSpec (narr : List Char) (acc : List Redaction × Redaction)
    (a : Redaction) : List Redaction × Redaction :=
  let e := acc.2
  if e.start = a.end_ + 1 ∧ e.text = a.text ∧ e.info = "person" ∧
      a.info = "person" ∧ a.end_ < narr.length ∧
      (charAt narr a.end_).isWhitespace then
    (acc.1, ⟨a.start, e.end_, e.text, e.info, e.color⟩)
  else (acc.1 ++ [e], a)

/-- Annotation merger as the specification words it, with the gap condition
written arithmetically. -/
def merge_annotations_spec (anns : List Redaction) (narr : List Char) :
    List Redaction :=
  if anns.length ≤ 1 then anns
  else
    match sortDesc anns with
    | [] => []
    | e0 :: rest =>
      let p := rest.foldl (mergeStepSpec narr) ([], e0)
      p.1 ++ [p.2]

/-- Candidate loop of a detector that calls redact directly on each proposed
match, as mask_skin_color and the other regex detectors do (the regex
matching itself is the candidate oracle).  All redact flags are the Python
defaults. -/
def runDetectorUnguarded (sentStart : List Char → Nat → Bool) (st : STState) :
    List (Nat × Nat × String × String) → Except RErr (List Redaction × STState)
  | [] => .ok ([], st)
  | (s, e, repl, info) :: rest =>
    match redact sentStart st s e repl true true true false info with
    | .error er => .error er
    | .ok (r, st2) =>
      match runDetectorUnguarded sentStart st2 rest with
      | .error er => .error er
      | .ok (rs, st3) => .ok (r :: rs, st3)

/-- Candidate loop of a detector that first asks can_redact and skips the
candidate on refusal, as _redact_entities, _redact_words and
mask_person_fuzzy do. -/
def runDetectorGuarded (sentStart : List Char → Nat → Bool) (st : STState) :
    List (Nat × Nat × String × String) → Except RErr (List Redaction × STState)
  | [] => .ok ([], st)
  | (s, e, repl, info) :: rest =>
    match can_redact st s e with
    | .error er => .error er
    | .ok false => runDetectorGuarded sentStart st rest
    | .ok true =>
      match redact sentStart st s e repl true true true false info with
      | .error er => .error er
      | .ok (r, st2) =>
        match runDetectorGuarded sentStart st2 rest with
        | .error er => .error er
        | .ok (rs, st3) => .ok (r :: rs, st3)

/-- Model of masker.mask: the ordered detector chain over one shared
SourceText, concatenating the yielded redactions; an uncaught exception in
any detector aborts the whole list() call. -/
def maskModel (sentStart : List Char → Nat → Bool) (st : STState) :
    List (Bool × List (Nat × Nat × String × String)) →
    Except RErr (List Redaction × STState)
  | [] => .ok ([], st)
  | (guarded, cands) :: dets =>
    match (if guarded then runDetectorGuarded sentStart st cands
      else runDetectorUnguarded sentStart st cands) with
    | .error er => .error er
    | .ok (rs, st2) =>
      match maskModel sentStart st2 dets with
      | .error er => .error er
      | .ok (rs2, st3) => .ok (rs ++ rs2, st3)

/-! ## individual.py, person.py, officer.py -/

/-- Python s.strip(".") used on names before the bare-initial length check. -/
def pyStripDots (s : String) : String :=
  String.mk (((s.data.dropWhile fun c => c = '.').reverse.dropWhile
    fun c => c = '.').reverse)

/-- Python s.split() on a name: whitespace runs, empties dropped
(implemented structurally so that closed evaluations reduce in the
kernel). -/
def splitWsAux : List Char → List Char → List String
  | [], cur => if cur = [] then [] else [String.mk cur.reverse]
  | c :: rest, cur =>
    if c.isWhitespace then
      if cur = [] then splitWsAux rest []
      else String.mk cur.reverse :: splitWsAux rest []
    else splitWsAux rest (c :: cur)

def pySplit (s : String) : List String :=
  splitWsAux s.data []

/-- Python s.strip() on a name. -/
def pyTrim (s : String) : String :=
  String.mk (((s.data.dropWhile fun c => c.isWhitespace).reverse.dropWhile
    fun c => c.isWhitespace).reverse)

/-- Python s.upper() on a name. -/
def pyUpper (s : String) : String :=
  String.mk (s.data.map Char.toUpper)

/-- Processing of a structured name argument in PersonName.parse_full_name:
falsy input becomes None, otherwise strip whitespace, strip dots, upper. -/
def procName : Option String → Option String
  | none => none
  | some str => if str = "" then none else some (pyUpper (pyStripDots (pyTrim str)))

def keepUpper (s : String) : String :=
  String.mk (s.data.filter fun c => c.isUpper)

def keepDigits (s : String) : String :=
  String.mk (s.data.filter fun c => c.isDigit)

/-- Constructor arguments of PersonName, as stored in _dict for to_dict.
The free-text name argument is not modelled: its parse_name path consults
the NLP stop-word oracle that the specification treats as external; the
structured f_name / m_name / l_name path is complete. -/
structure PersonArgs where
  indicator : Option String
  report_id : Option String
  f_name : Option String
  m_name : Option String
  l_name : Option String
  alias_ : Option String
  sfno : Option String
  court_no : Option String
  custom_label : Option String
deriving DecidableEq, Repr

/-- The PersonName reference state used by equality, merging and dedupe.
args keeps the constructor arguments (Python self._dict); merge does not
update it, exactly as the source never touches _dict after construction. -/
structure Person where
  args : PersonArgs
  indicator : Option String
  custom_label : Option String
  id_triplet : Finset (Option String × Option String × Option String)
  sfno : Option String
  court_no : Option String
  first : Finset String
  middle : Finset String
  last : Finset String
  alias_ : Finset String
deriving DecidableEq

/-- Embedding of the PersonName constructor on the structured-argument
path (name=None): indicator split into letters and digits, the identity
triplet, and parse_full_name for the three name fields. -/
def personFromArgs (a : PersonArgs) : Person :=
  let ptype := match a.indicator with
    | none => none
    | some ind => if keepUpper ind = "" then none else some (keepUpper ind)
  let pnum := match a.indicator with
    | none => none
    | some ind => if keepDigits ind = "" then none else some (keepDigits ind)
  let indicator := match ptype, pnum with
    | some t, some n => some (t ++ n)
    | _, _ => none
  let first : Finset String := match procName a.f_name with
    | none => ∅
    | some f => insert (pyUpper f) (pySplit (pyUpper f)).toFinset
  let middle : Finset String := match procName a.m_name with
    | none => ∅
    | some m => {pyUpper m}
  let last : Finset String := match procName a.l_name with
    | none => ∅
    | some l => insert (pyUpper l) (pySplit (pyUpper l)).toFinset
  let alias_ : Finset String := match a.alias_ with
    | none => ∅
    | some al => {pyUpper al}
  ⟨a, indicator, a.custom_label, {(a.report_id, ptype, pnum)}, a.sfno,
    a.court_no, first, middle, last, alias_⟩

/-- Embedding of PersonName.to_dict: a copy of the stored arguments. -/
def personToDict (p : Person) : PersonArgs :=
  p.args

/-- Embedding of person._name_match.  d is the Damerau edit distance of the
external similarity library, consumed as a pure function per the
specification; the source only calls max_dist 0 or 1, so the Jaro-Winkler
branch for fractional bounds is out of scope and the bound is a Nat. -/
def nameMatch (d : String → String → Nat) (s1 s2 : Finset String)
    (maxDist : Nat) : Bool :=
  if maxDist = 0 then decide (s1 ∩ s2).Nonempty
  else decide (∃ a ∈ s1, ∃ b ∈ s2, d a b ≤ maxDist)

/-- Embedding of PersonName.__eq__, in the source order: court numbers,
then sf numbers, then fuzzy last names (with the first-name side condition),
then alias intersection, then name-to-alias matches on names longer than a
bare initial, then the identity-triplet fallback when a side has no name. -/
def personEq (d : String → String → Nat) (a b : Person) : Bool :=
  if a.court_no.isSome ∧ b.court_no.isSome then a.court_no == b.court_no
  else if a.sfno.isSome ∧ b.sfno.isSome then a.sfno == b.sfno
  else if nameMatch d a.last b.last 1 ∧
      (if a.first.Nonempty ∧ b.first.Nonempty then nameMatch d a.first b.first 1
       else true) then true
  else if (a.alias_ ∩ b.alias_).Nonempty then true
  else if ∃ n ∈ b.last ∪ b.first, (pyStripDots n).length > 1 ∧ n ∈ a.alias_ then
    true
  else if ∃ n ∈ a.last ∪ a.first, (pyStripDots n).length > 1 ∧ n ∈ b.alias_ then
    true
  else if (a.last = ∅ ∧ a.first = ∅) ∨ (b.last = ∅ ∧ b.first = ∅) then
    a.id_triplet == b.id_triplet
  else false

/-- Embedding of PersonName.merge, without the equality gate that the
caller Individual.dedupe has already passed: sfno is filled only when
missing and the multi-valued fields are unioned; court_no and args are not
touched, exactly as in the source. -/
def pmerge (a b : Person) : Person :=
  { a with
    sfno := if a.sfno.isNone then b.sfno else a.sfno
    id_triplet := a.id_triplet ∪ b.id_triplet
    first := a.first ∪ b.first
    middle := a.middle ∪ b.middle
    last := a.last ∪ b.last
    alias_ := a.alias_ ∪ b.alias_ }

/-- The OfficerName reference state used by equality and merging. -/
structure Officer where
  dgt5_code : Option String
  star : Option String
  title : Option String
  name : Finset String
deriving DecidableEq

/-- Embedding of OfficerName.__eq__: any difference in the 5-character code
field (including one side missing it) is decisive, then a shared non-null
star number, then any shared name token. -/
def officerEq (a b : Officer) : Bool :=
  if a.dgt5_code ≠ b.dgt5_code then false
  else if a.star.isSome && a.star == b.star then true
  else decide (∃ n ∈ a.name, n ∈ b.name)

/-- Embedding of OfficerName.merge without the already-passed equality
gate. -/
def omerge (a b : Officer) : Officer :=
  ⟨if a.dgt5_code.isNone then b.dgt5_code else a.dgt5_code,
   if a.star.isNone then b.star else a.star,
   if a.title.isNone then b.title else a.title,
   a.name ∪ b.name⟩

/-- Inner j-scan of Individual.dedupe over the still-live later slots:
every b judged equal to the running a is merged into it and its slot
cleared; the Bool reports whether anything merged in this pass. -/
def innerPass (eq : α → α → Bool) (mg : α → α → α) :
    α → List (Option α) → α × List (Option α) × Bool
  | a, [] => (a, [], false)
  | a, none :: rest =>
    let p := innerPass eq mg a rest
    (p.1, none :: p.2.1, p.2.2)
  | a, some b :: rest =>
    if eq a b then
      let p := innerPass eq mg (mg a b) rest
      (p.1, none :: p.2.1, true)
    else
      let p := innerPass eq mg a rest
      (p.1, some b :: p.2.1, p.2.2)

/-- Outer while loop of Individual.dedupe.  Every iteration either drops the
(dead or emitted) head or strictly shrinks the live count, so fuel
2*len+1 always suffices; it exists only for structural recursion. -/
def dedupeLoop (eq : α → α → Bool) (mg : α → α → α) :
    Nat → List (Option α) → List α → List α
  | 0, _, acc => acc
  | _ + 1, [], acc => acc
  | fuel + 1, none :: rest, acc => dedupeLoop eq mg fuel rest acc
  | fuel + 1, some a :: rest, acc =>
    let p := innerPass eq mg a rest
    if p.2.2 then dedupeLoop eq mg fuel (some p.1 :: p.2.1) acc
    else dedupeLoop eq mg fuel p.2.1 (acc ++ [p.1])

/-- Embedding of the shared Individual.dedupe algorithm, parameterised by
the variant equality rule and merge, as the abstract base class is by its
two subclasses. -/
def dedupe (eq : α → α → Bool) (mg : α → α → α) (l : List α) : List α :=
  dedupeLoop eq mg (2 * l.length + 1) (l.map some) []

/-! ## Claim-side definitions (used only to state what claims assert) -/

/-- Modelled from the spec wording: the word immediately preceding position
index in the text, separated from it by whitespace; none when the position
has no separated preceding word.  Used to state the article-correction
claim, not taken from the source. -/
def specPrecedingWord (text : List Char) (index : Nat) : Option (List Char) :=
  let rev := (text.take index).reverse
  let gap := rev.takeWhile fun c => c.isWhitespace
  if gap.isEmpty then none
  else
    let w := (rev.drop gap.length).takeWhile fun c => !c.isWhitespace
    if w.isEmpty then none else some w.reverse

/-- Claim wording of the vowel-form rule: the replacement needs the vowel
article exactly when its first alphabetic character is a vowel letter, or
the first character that is a digit, met before any letter, is 8. -/
def specNeedsAn (repl : List Char) : Prop :=
  match repl.find? fun c => c.isAlpha || c.isDigit with
  | some c =>
    if c.isAlpha then c.toLower ∈ ['a', 'e', 'i', 'o', 'u'] else c = '8'
  | none => False

/-- Claim wording of officer equality: a distinct shift code on BOTH sides
forces inequality, otherwise matching stars or a shared name token decide. -/
def claimOfficerEq (a b : Officer) : Bool :=
  if a.dgt5_code.isSome && b.dgt5_code.isSome && a.dgt5_code != b.dgt5_code
  then false
  else (a.star.isSome && a.star == b.star) || decide (∃ n ∈ a.name, n ∈ b.name)

/-- Stand-in for the external Damerau distance in closed computations whose
evaluation never consults it (the sets compared are empty or the match is
exact). -/
def dStub (s t : String) : Nat :=
  if s = t then 0 else 2

/-! ## Claim theorems -/

/-- C2: starting from an empty BrokenRange, the call sequence addspan(5,10),
addspan(0,1), addspan(2,3), addspan(10,15), addspan(2,20), addspan(-1,100)
produces exactly the intermediate boundary lists [5,10], [0,1,5,10],
[0,1,2,3,5,10], [0,1,2,3,5,15], [0,1,2,20] and finally [-1,100]. -/
theorem C2_addspan_sequence :
    addspan [] 5 10 = some [5, 10] ∧
    addspan [5, 10] 0 1 = some [0, 1, 5, 10] ∧
    addspan [0, 1, 5, 10] 2 3 = some [0, 1, 2, 3, 5, 10] ∧
    addspan [0, 1, 2, 3, 5, 10] 10 15 = some [0, 1, 2, 3, 5, 15] ∧
    addspan [0, 1, 2, 3, 5, 15] 2 20 = some [0, 1, 2, 20] ∧
    addspan [0, 1, 2, 20] (-1) 100 = some [-1, 100] := by
  refine ⟨?_, ?_, ?_, ?_, ?_, ?_⟩ <;> decide

/-- C3: after any sequence of valid addspan insertions starting from the
empty range, contains x is true exactly when x lies in the half-open span
of some stored merged pair (so contains at a span end is false, the end
being exclusive), and overlaps a b with a < b is true exactly when [a, b)
shares a point with some stored span; inserting the touching spans [0,1)
then [1,5) yields the single merged boundary list [0,5). -/
theorem C3_contains_overlaps_correct :
    (∀ ops R, applyAdds [] ops = some R →
      (∀ x, contains R x = true ↔ semMemP R x) ∧
      (∀ a b, a < b →
        (overlaps R a b = some true ↔ ∃ x, a ≤ x ∧ x < b ∧ semMemP R x))) ∧
    applyAdds [] [(0, 1), (1, 5)] = some [0, 5] := by
  constructor
  · intro ops R happ
    have hinv := (applyAdds_spec ops [] R brInv_nil happ).1
    exact ⟨fun x => contains_iff R x hinv,
      fun a b hab => overlaps_iff R a b hinv hab⟩
  · decide

/-- Witness for C3 at the concrete range built by addspan(5,8): membership,
the exclusive end, and an overlap query. -/
theorem C3_witness :
    (contains [5, 8] 6 = true ↔ semMemP [5, 8] 6) ∧
    (contains [5, 8] 8 = true ↔ semMemP [5, 8] 8) ∧
    (overlaps [5, 8] 4 6 = some true ↔ ∃ x, 4 ≤ x ∧ x < 6 ∧ semMemP [5, 8] x) := by
  have h := C3_contains_overlaps_correct.1 [(5, 8)] [5, 8] (by decide)
  exact ⟨h.1 6, h.1 8, h.2 4 6 (by decide)⟩

theorem redactFinish_clear (st : STState) (s2 e1 : Nat) (t2 : List Char)
    (info : String) (red : Redaction) (st2 : STState)
    (h : redactFinish st s2 e1 t2 info = .ok (red, st2)) :
    addspan st.cleared (red.start : Int) (red.end_ : Int) = some st2.cleared := by
  unfold redactFinish at h
  split at h
  · exact absurd h (by simp)
  · rename_i st2q hcs
    rw [Except.ok.injEq, Prod.mk.injEq] at h
    obtain ⟨hred, hst2⟩ := h
    unfold clear_span at hcs
    split at hcs
    · exact absurd hcs (by simp)
    · rename_i c2 hadd
      rw [Option.some.injEq] at hcs
      subst hst2
      rw [← hred, ← hcs]
      exact hadd

/-- A successful redact registered exactly the returned redaction's final
span in the interval tracker: the returned state's cleared set is
addspan of the previous one at [red.start, red.end_). -/
theorem redactBody_clear (o : List Char → Nat → Bool) (st : STState)
    (s e : Nat) (txt : String) (c ac aa : Bool) (info : String)
    (red : Redaction) (st2 : STState)
    (h : redactBody o st s e txt c ac aa info = .ok (red, st2)) :
    addspan st.cleared (red.start : Int) (red.end_ : Int) = some st2.cleared := by
  unfold redactBody at h
  exact redactFinish_clear st _ _ _ info red st2 h

theorem redact_clear (o : List Char → Nat → Bool) (st : STState)
    (s e : Nat) (txt : String) (c ac aa f : Bool) (info : String)
    (red : Redaction) (st2 : STState)
    (h : redact o st s e txt c ac aa f info = .ok (red, st2)) :
    addspan st.cleared (red.start : Int) (red.end_ : Int) = some st2.cleared := by
  unfold redact at h
  split at h
  · exact redactBody_clear o st s e txt c ac aa info red st2 h
  · split at h
    · exact absurd h (by simp)
    · exact redactBody_clear o st s e txt c ac aa info red st2 h
    · exact absurd h (by simp)

/-- C4: after every successful addspan sequence from the empty tracker the
boundary list is strictly increasing and of even length (with even indices
opening and odd indices closing the spans, the reading fixed by semMemP);
addspan only ever grows the covered set; and once redact succeeds, every
later state of the same document reached by further successful insertions
refuses can_redact on any span overlapping the registered one. -/
theorem C4_invariant_monotone :
    (∀ ops R, applyAdds [] ops = some R →
      chainLt R = true ∧ R.length % 2 = 0) ∧
    (∀ R s e R2 x, brInv R → addspan R s e = some R2 →
      semMemP R x → semMemP R2 x) ∧
    (∀ (o : List Char → Nat → Bool) (st : STState) (s e : Nat) (txt : String)
      (c ac aa f : Bool) (info : String) (red : Redaction) (st2 : STState)
      (ops : List (Int × Int)) (Cl : List Int) (t : List Char) (a b : Nat),
      brInv st.cleared →
      redact o st s e txt c ac aa f info = .ok (red, st2) →
      applyAdds st2.cleared ops = some Cl →
      a < b → a < red.end_ → red.start < b →
      can_redact ⟨t, Cl⟩ a b = .ok false) := by
  refine ⟨?_, ?_, ?_⟩
  · intro ops R happ
    exact (applyAdds_spec ops [] R brInv_nil happ).1
  · intro R s e R2 x hinv hadd hmem
    exact (addspan_spec R s e R2 hinv hadd).2.2.1 x hmem
  · intro o st s e txt c ac aa f info red st2 ops Cl t a b hinv hred happ
      hab hae hrb
    have hadd := redact_clear o st s e txt c ac aa f info red st2 hred
    obtain ⟨hinv2, hse, _, hadds⟩ :=
      addspan_spec st.cleared (red.start : Int) (red.end_ : Int)
        st2.cleared hinv hadd
    obtain ⟨hinvC, hmonoC⟩ := applyAdds_spec ops st2.cleared Cl hinv2 happ
    have hsem : semMemP Cl (max (a : Int) (red.start : Int)) := by
      apply hmonoC
      apply hadds
      · exact le_max_right _ _
      · apply max_lt
        · exact_mod_cast hae
        · exact hse
    have hov : overlaps Cl (a : Int) (b : Int) = some true := by
      rw [overlaps_iff Cl (a : Int) (b : Int) hinvC (by exact_mod_cast hab)]
      refine ⟨max (a : Int) (red.start : Int), le_max_left _ _, ?_, hsem⟩
      apply max_lt
      · exact_mod_cast hab
      · exact_mod_cast hrb
    unfold can_redact
    rw [hov]
    rfl

deriving instance DecidableEq for Except

/-- Sentence-start oracle that always answers no, used in closed
computations; _is_sent_start consults the external NLP model. -/
def oracleF : List Char → Nat → Bool := fun _ _ => false

/-- Witness for C4 at concrete data: the invariant after two insertions,
one concrete monotone growth step, and a concrete redact of [0,5) in an
eleven-character document followed by a refused overlapping can_redact. -/
theorem C4_witness :
    (chainLt [0, 1, 5, 10] = true ∧ ([0, 1, 5, 10] : List Int).length % 2 = 0) ∧
    semMemP [0, 1, 5, 10] 7 ∧
    can_redact ⟨"hello world".data, [0, 5]⟩ 2 7 = .ok false := by
  refine ⟨?_, ?_, ?_⟩
  · exact (C4_invariant_monotone.1 [(5, 10), (0, 1)] [0, 1, 5, 10] (by decide))
  · exact C4_invariant_monotone.2.1 [5, 10] 0 1 [0, 1, 5, 10] 7
      ⟨by decide, by decide⟩ (by decide) ⟨0, by decide, by decide, by decide⟩
  · exact C4_invariant_monotone.2.2 oracleF ⟨"hello world".data, []⟩ 0 5 "[x]"
      true true true false "i" ⟨0, 5, "[x]", "i", none⟩
      ⟨"***** world".data, [0, 5]⟩ [] [0, 5] "hello world".data 2 7
      ⟨by decide, by decide⟩ (by decide) (by decide) (by decide) (by decide)
      (by decide)

theorem can_redact_error (st : STState) (s e : Nat) (er : RErr)
    (h : can_redact st s e = .error er) : er = RErr.invalidExtent := by
  unfold can_redact at h
  split at h
  · rw [Except.error.injEq] at h; exact h.symm
  · exact absurd h (by simp)

theorem redactFinish_error (st : STState) (s2 e1 : Nat) (t2 : List Char)
    (info : String) (er : RErr)
    (h : redactFinish st s2 e1 t2 info = .error er) :
    er = RErr.invalidExtent := by
  unfold redactFinish at h
  split at h
  · rw [Except.error.injEq] at h; exact h.symm
  · exact absurd h (by simp)

theorem redactBody_error (o : List Char → Nat → Bool) (st : STState)
    (s e : Nat) (txt : String) (c ac aa : Bool) (info : String) (er : RErr)
    (h : redactBody o st s e txt c ac aa info = .error er) :
    er = RErr.invalidExtent := by
  unfold redactBody at h
  exact redactFinish_error st _ _ _ info er h

theorem redact_checked_error (o : List Char → Nat → Bool) (st : STState)
    (s e : Nat) (txt : String) (c ac aa : Bool) (info : String) (er : RErr)
    (hok : can_redact st s e = .ok true)
    (h : redact o st s e txt c ac aa false info = .error er) :
    er = RErr.invalidExtent := by
  unfold redact at h
  rw [if_neg Bool.false_ne_true, hok] at h
  exact redactBody_error o st s e txt c ac aa info er h

/-- C1 amended: detectors that pre-check can_redact skip overlapping
candidates, so the guarded candidate loop can only surface the ValueError
of an invalid extent, never OverlapError; detectors that call redact
directly do not catch anything, so an overlapping candidate makes the loop
return OverlapError, which the mask chain then propagates to its caller. -/
theorem C1_overlap_handling :
    (∀ (o : List Char → Nat → Bool) (st : STState)
      (cands : List (Nat × Nat × String × String)) (er : RErr),
      runDetectorGuarded o st cands = .error er → er = RErr.invalidExtent) ∧
    (∀ (o : List Char → Nat → Bool) (st : STState) (s e : Nat)
      (repl info : String) (rest : List (Nat × Nat × String × String)),
      can_redact st s e = .ok false →
      runDetectorUnguarded o st ((s, e, repl, info) :: rest) =
        .error RErr.overlap) := by
  constructor
  · intro o st cands
    induction cands generalizing st with
    | nil =>
      intro er h
      exact absurd h (by simp [runDetectorGuarded])
    | cons cand rest ih =>
      obtain ⟨s, e, repl, info⟩ := cand
      intro er h
      unfold runDetectorGuarded at h
      split at h
      · rename_i er1 heq
        rw [Except.error.injEq] at h
        rw [← h]
        exact can_redact_error st s e er1 heq
      · rename_i heq
        exact ih st er h
      · rename_i heq
        split at h
        · rename_i er2 heq2
          rw [Except.error.injEq] at h
          rw [← h]
          exact redact_checked_error o st s e repl true true true info er2
            heq heq2
        · rename_i r st2 heq2
          split at h
          · rename_i er3 heq3
            rw [Except.error.injEq] at h
            rw [← h]
            exact ih st2 er3 heq3
          · exact absurd h (by simp)
  · intro o st s e repl info rest hcr
    have hred : redact o st s e repl true true true false info =
        .error RErr.overlap := by
      unfold redact
      rw [if_neg Bool.false_ne_true, hcr]
    unfold runDetectorUnguarded
    rw [hred]

/-- C1 counterexample to the claim as stated: a two-detector pipeline on the
six-character document in which the second detector (an unguarded,
regex-style one) proposes a span overlapping the first detector's accepted
redaction; the OverlapError propagates out of the mask chain instead of
being treated as a skip, so the result of the whole pipeline is the error,
not a redaction list. -/
theorem C1_counterexample :
    maskModel oracleF ⟨"abcdef".data, []⟩
      [(false, [(0, 3, "[x]", "i")]), (false, [(1, 4, "[y]", "i")])] =
      .error RErr.overlap := by
  decide

/-- Witness for C1: the guarded loop on an invalid extent only reports the
extent error, and the unguarded loop on a concrete overlapped candidate
reports OverlapError. -/
theorem C1_witness :
    RErr.invalidExtent = RErr.invalidExtent ∧
    runDetectorUnguarded oracleF ⟨"abcdef".data, [0, 3]⟩ [(1, 4, "[y]", "i")] =
      .error RErr.overlap := by
  constructor
  · exact C1_overlap_handling.1 oracleF ⟨"abcdef".data, []⟩
      [(2, 2, "[x]", "i")] RErr.invalidExtent (by decide)
  · exact C1_overlap_handling.2 oracleF ⟨"abcdef".data, [0, 3]⟩ 1 4 "[y]" "i"
      [] (by decide)

theorem dedupeLoop_some (eq : α → α → Bool) (mg : α → α → α) (fuel : Nat)
    (a : α) (rest : List (Option α)) (acc : List α) :
    dedupeLoop eq mg (fuel + 1) (some a :: rest) acc =
      (let p := innerPass eq mg a rest
       if p.2.2 then dedupeLoop eq mg fuel (some p.1 :: p.2.1) acc
       else dedupeLoop eq mg fuel p.2.1 (acc ++ [p.1])) := rfl

theorem dedupeLoop_none (eq : α → α → Bool) (mg : α → α → α) (fuel : Nat)
    (rest : List (Option α)) (acc : List α) :
    dedupeLoop eq mg (fuel + 1) (none :: rest) acc =
      dedupeLoop eq mg fuel rest acc := rfl

theorem dedupeLoop_nil (eq : α → α → Bool) (mg : α → α → α) (fuel : Nat)
    (acc : List α) :
    dedupeLoop eq mg (fuel + 1) [] acc = acc := rfl

/-- C5 amended: for a chain of three civilian references in which the first
compares equal to the second and the already-merged first-and-second
compares equal to the third (the extra condition the counterexample shows
to be necessary), dedupe returns exactly one surviving reference, and its
multi-valued fields are the unions of all three inputs' corresponding
fields: first, middle, last and alias name sets and the identity-triplet
set. -/
theorem C5_dedupe_chain (d : String → String → Nat) (a b c : Person)
    (h1 : personEq d a b = true)
    (h2 : personEq d (pmerge a b) c = true) :
    dedupe (personEq d) pmerge [a, b, c] = [pmerge (pmerge a b) c] ∧
    (pmerge (pmerge a b) c).first = a.first ∪ b.first ∪ c.first ∧
    (pmerge (pmerge a b) c).middle = a.middle ∪ b.middle ∪ c.middle ∧
    (pmerge (pmerge a b) c).last = a.last ∪ b.last ∪ c.last ∧
    (pmerge (pmerge a b) c).alias_ = a.alias_ ∪ b.alias_ ∪ c.alias_ ∧
    (pmerge (pmerge a b) c).id_triplet =
      a.id_triplet ∪ b.id_triplet ∪ c.id_triplet := by
  refine ⟨?_, rfl, rfl, rfl, rfl, rfl⟩
  have e1 : innerPass (personEq d) pmerge a [some b, some c] =
      (pmerge (pmerge a b) c, [none, none], true) := by
    simp [innerPass, h1, h2]
  have e2 : innerPass (personEq d) pmerge (pmerge (pmerge a b) c)
      [none, none] = (pmerge (pmerge a b) c, [none, none], false) := by
    simp [innerPass]
  show dedupeLoop (personEq d) pmerge (6 + 1) [some a, some b, some c] [] =
    [pmerge (pmerge a b) c]
  rw [dedupeLoop_some, e1]
  show dedupeLoop (personEq d) pmerge (5 + 1)
    [some (pmerge (pmerge a b) c), none, none] [] = [pmerge (pmerge a b) c]
  rw [dedupeLoop_some, e2]
  show dedupeLoop (personEq d) pmerge (4 + 1) [none, none]
    ([] ++ [pmerge (pmerge a b) c]) = [pmerge (pmerge a b) c]
  rw [dedupeLoop_none]
  show dedupeLoop (personEq d) pmerge (3 + 1) [none]
    ([] ++ [pmerge (pmerge a b) c]) = [pmerge (pmerge a b) c]
  rw [dedupeLoop_none]
  show dedupeLoop (personEq d) pmerge (2 + 1) []
    ([] ++ [pmerge (pmerge a b) c]) = [pmerge (pmerge a b) c]
  rw [dedupeLoop_nil]
  rfl

/-- Civilian references for the C5 counterexample, built by the embedded
constructor: paC5 carries only an alias, pbC5 the same alias plus a court
number, pcC5 a different report id with the same court number and no
names. -/
def paC5 : Person :=
  personFromArgs ⟨none, none, none, none, none, some "Foo", none, none, none⟩

def pbC5 : Person :=
  personFromArgs ⟨none, none, none, none, none, some "Foo", none,
    some "C1", none⟩

def pcC5 : Person :=
  personFromArgs ⟨none, some "R2", none, none, none, none, none,
    some "C1", none⟩

/-- C5 counterexample to the claim as stated: the first reference equals the
second (shared alias) and the second equals the third (shared court
number), yet dedupe returns two surviving references, because merge never
copies the court number, so the merged first-and-second no longer matches
the third.  The distance function is never consulted on this input (every
fuzzy comparison sees an empty name set), so the stub stands in for the
external library. -/
theorem C5_counterexample :
    personEq dStub paC5 pbC5 = true ∧
    personEq dStub pbC5 pcC5 = true ∧
    (dedupe (personEq dStub) pmerge [paC5, pbC5, pcC5]).length = 2 := by
  refine ⟨by decide, by decide, by decide⟩

/-- Witness for C5 with three references sharing one alias. -/
theorem C5_witness :
    dedupe (personEq dStub) pmerge [paC5, paC5, paC5] =
      [pmerge (pmerge paC5 paC5) paC5] := by
  exact (C5_dedupe_chain dStub paC5 paC5 paC5 (by decide) (by decide)).1

/-- C7 amended: two officer references compare equal exactly when their
shift-code fields agree (both absent or both the same code; any difference,
including one side missing the code, forces inequality) and either both
star numbers are present and equal or some name token is shared. -/
theorem C7_officer_equality (a b : Officer) :
    officerEq a b = true ↔
      a.dgt5_code = b.dgt5_code ∧
      ((∃ s, a.star = some s ∧ b.star = some s) ∨ ∃ n ∈ a.name, n ∈ b.name) := by
  unfold officerEq
  by_cases hd : a.dgt5_code ≠ b.dgt5_code
  · rw [if_pos hd]
    simp only [Bool.false_eq_true, false_iff]
    rintro ⟨heq, _⟩
    exact hd heq
  · rw [if_neg hd]
    push_neg at hd
    by_cases hs : a.star.isSome && a.star == b.star
    · rw [if_pos hs]
      simp only [true_iff]
      refine ⟨hd, Or.inl ?_⟩
      rw [Bool.and_eq_true, beq_iff_eq] at hs
      obtain ⟨hsome, heq⟩ := hs
      obtain ⟨s, hsV⟩ := Option.isSome_iff_exists.mp hsome
      exact ⟨s, hsV, heq ▸ hsV⟩
    · rw [if_neg hs]
      rw [decide_eq_true_eq]
      constructor
      · intro h
        exact ⟨hd, Or.inr h⟩
      · rintro ⟨_, hstar | hn⟩
        · obtain ⟨s, ha2, hb2⟩ := hstar
          have hcon : (a.star.isSome && a.star == b.star) = true := by
            rw [ha2, hb2]
            simp
          exact absurd hcon hs
        · exact hn

/-- C7 counterexample to the claim as stated: one officer carries a shift
code, the other does not, and both carry star number 123.  The claim (only
a distinct code on BOTH sides forces inequality, otherwise matching stars
suffice) predicts equality, as claimOfficerEq states it; the code compares
the code fields with plain inequality, so the references are unequal. -/
theorem C7_counterexample :
    claimOfficerEq ⟨some "1A23B", some "123", none, ∅⟩
      ⟨none, some "123", none, ∅⟩ = true ∧
    officerEq ⟨some "1A23B", some "123", none, ∅⟩
      ⟨none, some "123", none, ∅⟩ = false := by
  exact ⟨by decide, by decide⟩

/-- Arguments of the C8 failing input: a roster record carrying only a
first name. -/
def johnArgs : PersonArgs :=
  ⟨none, none, some "John", none, none, none, none, none, none⟩

/-- C8: evaluation of the to_dict round trip at the failing input
PersonName(f_name="John").  to_dict returns exactly the stored constructor
arguments, so the reconstruction is the very same reference, yet the
equality rule answers false: the reference has a first name but no last
name, no alias and no numbers, so every branch of PersonName.__eq__ falls
through, including the identity-triplet fallback, which is guarded by
having no names at all.  This contradicts the round-trip contract stated in
the to_dict docstrings. -/
theorem C8_roundtrip_failure :
    personToDict (personFromArgs johnArgs) = johnArgs ∧
    personEq dStub (personFromArgs (personToDict (personFromArgs johnArgs)))
      (personFromArgs johnArgs) = false := by
  exact ⟨rfl, by decide⟩

/-- Equality of every redaction field except start. -/
def fieldsEq (x y : Redaction) : Prop :=
  x.end_ = y.end_ ∧ x.text = y.text ∧ x.info = y.info ∧ x.color = y.color

theorem insDesc_mem (r x : Redaction) (l : List Redaction)
    (h : x ∈ insDesc r l) : x = r ∨ x ∈ l := by
  induction l with
  | nil => simpa [insDesc] using h
  | cons y ys ih =>
    unfold insDesc at h
    split at h
    · rcases List.mem_cons.mp h with h1 | h1
      · exact Or.inr (List.mem_cons.mpr (Or.inl h1))
      · rcases ih h1 with h2 | h2
        · exact Or.inl h2
        · exact Or.inr (List.mem_cons.mpr (Or.inr h2))
    · rcases List.mem_cons.mp h with h1 | h1
      · exact Or.inl h1
      · exact Or.inr h1

theorem sortDesc_mem (x : Redaction) (l : List Redaction)
    (h : x ∈ sortDesc l) : x ∈ l := by
  induction l with
  | nil => simpa [sortDesc] using h
  | cons y ys ih =>
    unfold sortDesc at h
    rcases insDesc_mem y x (sortDesc ys) h with h1 | h1
    · exact h1 ▸ List.mem_cons_self y ys
    · exact List.mem_cons.mpr (Or.inr (ih h1))

theorem mergeFold_mem (narr : List Char) (rest : List Redaction)
    (acc : List Redaction) (e : Redaction) (S : List Redaction)
    (hacc : ∀ x ∈ acc, ∃ r0 ∈ S, fieldsEq x r0)
    (he : ∃ r0 ∈ S, fieldsEq e r0)
    (hrest : ∀ x ∈ rest, x ∈ S) :
    ∀ r ∈ (rest.foldl (mergeStep narr) (acc, e)).1 ++
        [(rest.foldl (mergeStep narr) (acc, e)).2],
      ∃ r0 ∈ S, fieldsEq r r0 := by
  induction rest generalizing acc e with
  | nil =>
    intro r hr
    simp only [List.foldl_nil] at hr
    rcases List.mem_append.mp hr with h1 | h1
    · exact hacc r h1
    · rw [List.mem_singleton] at h1
      exact h1 ▸ he
  | cons a rest ih =>
    intro r hr
    simp only [List.foldl_cons] at hr
    by_cases hc : (e.start - a.end_ ≤ 1 ∧ e.text = a.text ∧ e.info = a.info ∧
        e.info = "person" ∧ matchWs (pySlice narr a.end_ e.start) = true)
    · have hstep : mergeStep narr (acc, e) a =
          (acc, ⟨a.start, e.end_, e.text, e.info, e.color⟩) := by
        unfold mergeStep
        rw [if_pos hc]
      rw [hstep] at hr
      obtain ⟨r0, hr0, hf⟩ := he
      refine ih acc ⟨a.start, e.end_, e.text, e.info, e.color⟩ hacc
        ⟨r0, hr0, ?_⟩ (fun x hx => hrest x (List.mem_cons.mpr (Or.inr hx)))
        r hr
      exact ⟨hf.1, hf.2.1, hf.2.2.1, hf.2.2.2⟩
    · have hstep : mergeStep narr (acc, e) a = (acc ++ [e], a) := by
        unfold mergeStep
        rw [if_neg hc]
      rw [hstep] at hr
      refine ih (acc ++ [e]) a ?_ ?_
        (fun x hx => hrest x (List.mem_cons.mpr (Or.inr hx))) r hr
      · intro x hx
        rcases List.mem_append.mp hx with h1 | h1
        · exact hacc x h1
        · rw [List.mem_singleton] at h1
          exact h1 ▸ he
      · exact ⟨a, hrest a (List.mem_cons_self a rest), rfl, rfl, rfl, rfl⟩

/-- C10: merge_annotations only ever modifies the start offset: every
output redaction has the end offset, replacement text, info tag and color
of some input redaction, and an input list of fewer than two redactions is
returned unchanged. -/
theorem C10_frame (anns : List Redaction) (narr : List Char) :
    (anns.length ≤ 1 → merge_annotations anns narr = anns) ∧
    ∀ r ∈ merge_annotations anns narr, ∃ r0 ∈ anns,
      r.end_ = r0.end_ ∧ r.text = r0.text ∧ r.info = r0.info ∧
      r.color = r0.color := by
  constructor
  · intro h
    unfold merge_annotations
    rw [if_pos h]
  · intro r hr
    unfold merge_annotations at hr
    by_cases hlen : anns.length ≤ 1
    · rw [if_pos hlen] at hr
      exact ⟨r, hr, rfl, rfl, rfl, rfl⟩
    · rw [if_neg hlen] at hr
      cases hS : sortDesc anns with
      | nil => rw [hS] at hr; simp at hr
      | cons e0 rest =>
        rw [hS] at hr
        have hmem : ∀ x ∈ e0 :: rest, x ∈ anns := by
          intro x hx
          exact sortDesc_mem x anns (hS ▸ hx)
        have h2 := mergeFold_mem narr rest [] e0 anns (by simp)
          ⟨e0, hmem e0 (List.mem_cons_self e0 rest), rfl, rfl, rfl, rfl⟩
          (fun x hx => hmem x (List.mem_cons.mpr (Or.inr hx)))
        obtain ⟨r0, hr0, hf⟩ := h2 r hr
        exact ⟨r0, hr0, hf.1, hf.2.1, hf.2.2.1, hf.2.2.2⟩

/-- Witness for C10: a singleton list is returned unchanged, and the merged
output of the doubled person label has the fields of an input redaction. -/
theorem C10_witness :
    merge_annotations [⟨0, 4, "(S1)", "person", none⟩] "x".data =
      [⟨0, 4, "(S1)", "person", none⟩] ∧
    (∃ r0 ∈ [(⟨0, 4, "(S1)", "person", none⟩ : Redaction),
        ⟨5, 9, "(S1)", "person", none⟩],
      (⟨0, 9, "(S1)", "person", none⟩ : Redaction).end_ = r0.end_ ∧
      (⟨0, 9, "(S1)", "person", none⟩ : Redaction).text = r0.text ∧
      (⟨0, 9, "(S1)", "person", none⟩ : Redaction).info = r0.info ∧
      (⟨0, 9, "(S1)", "person", none⟩ : Redaction).color = r0.color) := by
  constructor
  · exact (C10_frame [⟨0, 4, "(S1)", "person", none⟩] "x".data).1 (by decide)
  · exact (C10_frame [⟨0, 4, "(S1)", "person", none⟩,
      ⟨5, 9, "(S1)", "person", none⟩] "(S1) (S1)".data).2
      ⟨0, 9, "(S1)", "person", none⟩ (by decide)

theorem matchWs_drop (xs : List Char) (l : Nat) :
    matchWs (xs.drop l) =
      if l < xs.length then (charAt xs l).isWhitespace else false := by
  induction xs generalizing l with
  | nil => simp [matchWs]
  | cons x xs ih =>
    cases l with
    | zero => simp [matchWs, charAt]
    | succ m =>
      simp only [List.drop_succ_cons, ih, List.length_cons]
      by_cases h : m < xs.length
      · rw [if_pos h, if_pos (by omega)]
        rfl
      · rw [if_neg h, if_neg (by omega)]

theorem charAt_take (narr : List Char) (r k : Nat) (hk : k < r) :
    charAt (narr.take r) k = charAt narr k := by
  induction narr generalizing r k with
  | nil => simp
  | cons x xs ih =>
    cases r with
    | zero => omega
    | succ m =>
      cases k with
      | zero => rfl
      | succ j => simpa [charAt] using ih m j (by omega)

theorem matchWs_pySlice (narr : List Char) (l r : Nat) :
    matchWs (pySlice narr l r) = true ↔
      l < r ∧ l < narr.length ∧ (charAt narr l).isWhitespace = true := by
  unfold pySlice
  rw [matchWs_drop]
  by_cases h : l < (narr.take r).length
  · rw [if_pos h]
    rw [List.length_take] at h
    rw [charAt_take narr r l (by omega)]
    constructor
    · intro hws
      exact ⟨by omega, by omega, hws⟩
    · intro hc
      exact hc.2.2
  · rw [if_neg h]
    rw [List.length_take] at h
    simp only [Bool.false_eq_true, false_iff]
    intro hc
    omega

theorem mergeStep_eq_spec (narr : List Char) (acc : List Redaction × Redaction)
    (a : Redaction) : mergeStep narr acc a = mergeStepSpec narr acc a := by
  unfold mergeStep mergeStepSpec
  by_cases hc : (acc.2.start - a.end_ ≤ 1 ∧ acc.2.text = a.text ∧
      acc.2.info = a.info ∧ acc.2.info = "person" ∧
      matchWs (pySlice narr a.end_ acc.2.start) = true)
  · obtain ⟨h1, h2, h3, h4, h5⟩ := hc
    rw [matchWs_pySlice] at h5
    have hs : (acc.2.start = a.end_ + 1 ∧ acc.2.text = a.text ∧
        acc.2.info = "person" ∧ a.info = "person" ∧ a.end_ < narr.length ∧
        (charAt narr a.end_).isWhitespace = true) :=
      ⟨by omega, h2, h4, h3 ▸ h4, h5.2.1, h5.2.2⟩
    rw [if_pos ⟨h1, h2, h3, h4, (matchWs_pySlice narr a.end_ acc.2.start).mpr h5⟩,
      if_pos hs]
  · have hs : ¬ (acc.2.start = a.end_ + 1 ∧ acc.2.text = a.text ∧
        acc.2.info = "person" ∧ a.info = "person" ∧ a.end_ < narr.length ∧
        (charAt narr a.end_).isWhitespace = true) := by
      intro h
      obtain ⟨h1, h2, h3, h4, h5, h6⟩ := h
      refine hc ⟨by omega, h2, ?_, h3, ?_⟩
      · rw [h3, h4]
      · rw [matchWs_pySlice]
        exact ⟨by omega, h5, h6⟩
    rw [if_neg hc, if_neg hs]

theorem merge_annotations_eq_spec (anns : List Redaction) (narr : List Char) :
    merge_annotations anns narr = merge_annotations_spec anns narr := by
  unfold merge_annotations merge_annotations_spec
  have hf : mergeStep narr = mergeStepSpec narr := by
    funext acc a
    exact mergeStep_eq_spec narr acc a
  rw [hf]

theorem insDesc_headD (r : Redaction) (l : List Redaction) :
    (insDesc r l).head? = some r ∨ (insDesc r l).head? = l.head? := by
  cases l with
  | nil => exact Or.inl rfl
  | cons x xs =>
    unfold insDesc
    split
    · exact Or.inr rfl
    · exact Or.inl rfl

theorem insDesc_chain (r : Redaction) (l : List Redaction)
    (h : List.Chain' (fun r1 r2 => r2.start ≤ r1.start) l) :
    List.Chain' (fun r1 r2 => r2.start ≤ r1.start) (insDesc r l) := by
  induction l with
  | nil => simp [insDesc]
  | cons x xs ih =>
    unfold insDesc
    split
    · rename_i hlt
      rw [List.chain'_cons']
      constructor
      · intro y hy
        rcases insDesc_headD r xs with h1 | h1
        · rw [h1, Option.mem_some_iff] at hy
          subst hy
          exact le_of_lt hlt
        · rw [h1] at hy
          exact (List.chain'_cons'.mp h).1 y hy
      · exact ih (List.chain'_cons'.mp h).2
    · rename_i hge
      rw [List.chain'_cons]
      exact ⟨by omega, h⟩

theorem sortDesc_chain (l : List Redaction) :
    List.Chain' (fun r1 r2 => r2.start ≤ r1.start) (sortDesc l) := by
  induction l with
  | nil => simp [sortDesc]
  | cons x xs ih => exact insDesc_chain x (sortDesc xs) ih

theorem mergeFold_chain (narr : List Char) (rest : List Redaction)
    (acc : List Redaction) (e : Redaction)
    (h : List.Chain' (fun r1 r2 => r2.start ≤ r1.start) (acc ++ e :: rest)) :
    List.Chain' (fun r1 r2 => r2.start ≤ r1.start)
      ((rest.foldl (mergeStep narr) (acc, e)).1 ++
        [(rest.foldl (mergeStep narr) (acc, e)).2]) := by
  induction rest generalizing acc e with
  | nil => simpa using h
  | cons a rest ih =>
    simp only [List.foldl_cons]
    by_cases hc : (e.start - a.end_ ≤ 1 ∧ e.text = a.text ∧ e.info = a.info ∧
        e.info = "person" ∧ matchWs (pySlice narr a.end_ e.start) = true)
    · have hstep : mergeStep narr (acc, e) a =
          (acc, ⟨a.start, e.end_, e.text, e.info, e.color⟩) := by
        unfold mergeStep
        rw [if_pos hc]
      rw [hstep]
      apply ih
      rcases List.chain'_append.mp h with ⟨h1, h2, h3⟩
      rw [List.chain'_cons] at h2
      rcases h2 with ⟨hea, h2⟩
      rcases List.chain'_cons'.mp h2 with ⟨hhead, hrest⟩
      apply List.chain'_append.mpr
      refine ⟨h1, ?_, ?_⟩
      · apply List.chain'_cons'.mpr
        exact ⟨fun y hy => hhead y hy, hrest⟩
      · intro x hx y hy
        rw [List.head?_cons, Option.mem_some_iff] at hy
        subst hy
        have hxe := h3 x hx e (by simp)
        show a.start ≤ x.start
        simp only at hxe hea
        omega
    · have hstep : mergeStep narr (acc, e) a = (acc ++ [e], a) := by
        unfold mergeStep
        rw [if_neg hc]
      rw [hstep]
      apply ih
      simpa [List.append_assoc] using h

/-- C6 amended: merge_annotations coincides with the walk in which a
redaction is absorbed into the previous (higher-offset) one exactly when
the gap is exactly one character, that character is whitespace, the
replacement texts are identical and both annotations are person
annotations (a gap of zero characters never merges, because the empty gap
slice cannot match the whitespace test); the output is in descending-start
order; and the doubled person label in the narrative (S1) (S1) collapses
to the single union-span redaction. -/
theorem C6_merge_behaviour :
    (∀ anns narr, merge_annotations anns narr =
      merge_annotations_spec anns narr) ∧
    (∀ anns narr, List.Chain' (fun r1 r2 => r2.start ≤ r1.start)
      (merge_annotations anns narr)) ∧
    merge_annotations [⟨0, 4, "(S1)", "person", none⟩,
      ⟨5, 9, "(S1)", "person", none⟩] "(S1) (S1)".data =
      [⟨0, 9, "(S1)", "person", none⟩] := by
  refine ⟨merge_annotations_eq_spec, ?_, by decide⟩
  intro anns narr
  unfold merge_annotations
  by_cases hlen : anns.length ≤ 1
  · rw [if_pos hlen]
    match anns, hlen with
    | [], _ => simp
    | [x], _ => simp
  · rw [if_neg hlen]
    cases hS : sortDesc anns with
    | nil => simp
    | cons e0 rest =>
      have hch := sortDesc_chain anns
      rw [hS] at hch
      exact mergeFold_chain narr rest [] e0 (by simpa using hch)

/-- C6 counterexample to the claim as stated: two touching person
redactions with identical text (gap of zero characters).  The claim says a
gap of at most one character merges, so these should collapse to one
redaction; the code only merges when the gap slice starts with a
whitespace character, which an empty slice never does, so both survive. -/
theorem C6_counterexample :
    merge_annotations [⟨0, 1, "(S1)", "person", none⟩,
      ⟨1, 2, "(S1)", "person", none⟩] "ab".data =
      [⟨1, 2, "(S1)", "person", none⟩, ⟨0, 1, "(S1)", "person", none⟩] := by
  decide

/-! ## The article-correction scan, decomposed -/

/-- Ascending character slice: positions q, q+1, ..., q+n-1. -/
def sliceA (tdoc : List Char) (q n : Nat) : List Char :=
  (List.range n).map fun k => charAt tdoc (q + k)

theorem sliceA_succ (tdoc : List Char) (q n : Nat) :
    sliceA tdoc q (n + 1) = sliceA tdoc q n ++ [charAt tdoc (q + n)] := by
  unfold sliceA
  rw [List.range_succ, List.map_append]
  rfl

theorem scanFold_broken (l : List (Nat × Char)) (st : ScanSt) :
    scanFold l (st, true) = (st, true) := by
  cases l with
  | nil => rfl
  | cons pc rest =>
    obtain ⟨p, c⟩ := pc
    rfl

theorem scanFold_append (l1 l2 : List (Nat × Char)) (s : ScanSt × Bool) :
    scanFold (l1 ++ l2) s = scanFold l2 (scanFold l1 s) := by
  induction l1 generalizing s with
  | nil => rfl
  | cons pc rest ih =>
    obtain ⟨p, c⟩ := pc
    obtain ⟨st, b⟩ := s
    cases b with
    | true => simp [scanFold, scanFold_broken]
    | false =>
      by_cases hc : c = ' '
      · by_cases hwd : st.words.length = 2
        · simp [scanFold, hc, hwd, scanFold_broken]
        · simp only [List.cons_append, scanFold, hc, hwd, if_true, if_false]
          simp only [Bool.false_eq_true, if_false, if_true]
          exact ih _
      · simp only [List.cons_append, scanFold, hc]
        simp only [Bool.false_eq_true, if_false]
        exact ih _

theorem seg_split (tdoc : List Char) (f1 f2 : Nat) : ∀ ptr : Nat,
    seg tdoc (f1 + f2) ptr = seg tdoc f1 ptr ++ seg tdoc f2 (ptr - f1) := by
  induction f1 with
  | zero => intro ptr; simp [seg]
  | succ m ih =>
    intro ptr
    have h1 : m + 1 + f2 = (m + f2) + 1 := by omega
    rw [h1]
    show (ptr, charAt tdoc ptr) :: seg tdoc (m + f2) (ptr - 1) = _
    rw [ih (ptr - 1)]
    show _ = ((ptr, charAt tdoc ptr) :: seg tdoc m (ptr - 1)) ++
      seg tdoc f2 (ptr - (m + 1))
    rw [List.cons_append]
    have h2 : ptr - 1 - m = ptr - (m + 1) := by omega
    rw [h2]

theorem gapRun (tdoc : List Char) (g : Nat) : ∀ (ptr : Nat) (w1 : List Char)
    (ts : List Nat) (sp : List Char) (sc : Bool),
    (∀ k, k < g → charAt tdoc (ptr - k) = ' ') →
    scanFold (seg tdoc g ptr) (⟨[w1], ts, sp, sc⟩, false) =
      (⟨[w1], ts, List.replicate g ' ' ++ sp,
        if g = 0 then sc else false⟩, false) := by
  induction g with
  | zero =>
    intro ptr w1 ts sp sc hsp
    simp [seg, scanFold]
  | succ m ih =>
    intro ptr w1 ts sp sc hsp
    have hc : charAt tdoc ptr = ' ' := by simpa using hsp 0 (by omega)
    show scanFold ((ptr, charAt tdoc ptr) :: seg tdoc m (ptr - 1)) _ = _
    rw [hc]
    simp only [scanFold, Bool.false_eq_true, if_false, if_true]
    rw [if_neg (by simp : ¬ (ScanSt.mk [w1] ts sp sc).words.length = 2)]
    have ih2 := ih (ptr - 1) w1 ts (' ' :: sp) false ?_
    · rw [ih2]
      have hrep : List.replicate m ' ' ++ (' ' :: sp) =
          List.replicate (m + 1) ' ' ++ sp := by
        rw [List.replicate_succ']
        simp
      rw [hrep]
      have hflag : (if m = 0 then false else false) = false := by
        split <;> rfl
      rw [hflag]
      have hflag2 : (if m + 1 = 0 then sc else false) = false := by
        rw [if_neg (by omega)]
      rw [hflag2]
    · intro k hk
      have := hsp (k + 1) (by omega)
      have heq : ptr - (k + 1) = ptr - 1 - k := by omega
      rwa [heq] at this

theorem contRun (tdoc : List Char) : ∀ (n p : Nat) (w0 : List Char)
    (ws : List (List Char)) (ts : List Nat) (sp : List Char),
    n ≤ p + 1 →
    (∀ k, k < n → charAt tdoc (p + 1 - n + k) ≠ ' ') →
    scanFold (seg tdoc n p) (⟨w0 :: ws, ts, sp, true⟩, false) =
      (⟨(sliceA tdoc (p + 1 - n) n ++ w0) :: ws, ts, sp, true⟩, false) := by
  intro n
  induction n with
  | zero =>
    intro p w0 ws ts sp hn hch
    simp [seg, scanFold, sliceA]
  | succ m ih =>
    intro p w0 ws ts sp hn hch
    have hcp : charAt tdoc p ≠ ' ' := by
      have h0 := hch m (by omega)
      have heq : p + 1 - (m + 1) + m = p := by omega
      rwa [heq] at h0
    show scanFold ((p, charAt tdoc p) :: seg tdoc m (p - 1)) _ = _
    simp only [scanFold, Bool.false_eq_true, if_false]
    rw [if_neg hcp]
    simp only [if_true]
    have ih2 := ih (p - 1) (charAt tdoc p :: w0) ws ts sp (by omega) ?_
    · rw [ih2]
      have hsl : sliceA tdoc (p - 1 + 1 - m) m ++ (charAt tdoc p :: w0) =
          sliceA tdoc (p + 1 - (m + 1)) (m + 1) ++ w0 := by
        rw [sliceA_succ]
        have hpos : charAt tdoc (p + 1 - (m + 1) + m) = charAt tdoc p := by
          have heq : p + 1 - (m + 1) + m = p := by omega
          rw [heq]
        rw [hpos, List.append_assoc, List.singleton_append]
        cases m with
        | zero => simp [sliceA]
        | succ m2 =>
          have heq : p - 1 + 1 - (m2 + 1) = p + 1 - (m2 + 1 + 1) := by omega
          rw [heq]
      rw [hsl]
    · intro k hk
      have h0 := hch k (by omega)
      have heq : p + 1 - (m + 1) + k = p - 1 + 1 - m + k := by omega
      rwa [heq] at h0

theorem wordRun (tdoc : List Char) (L p : Nat) (hL : 1 ≤ L) (hp : L ≤ p + 1)
    (hch : ∀ k, k < L → charAt tdoc (p + 1 - L + k) ≠ ' ')
    (ws : List (List Char)) (ts : List Nat) (sp : List Char) :
    scanFold (seg tdoc L p) (⟨ws, ts, sp, false⟩, false) =
      (⟨sliceA tdoc (p + 1 - L) L :: ws, (p + 1) :: ts, sp, true⟩, false) := by
  match L, hL with
  | m + 1, _ =>
    have hcp : charAt tdoc p ≠ ' ' := by
      have h0 := hch m (by omega)
      have heq : p + 1 - (m + 1) + m = p := by omega
      rwa [heq] at h0
    show scanFold ((p, charAt tdoc p) :: seg tdoc m (p - 1)) _ = _
    simp only [scanFold, Bool.false_eq_true, if_false]
    rw [if_neg hcp]
    have ih2 := contRun tdoc m (p - 1) [charAt tdoc p] ws ((p + 1) :: ts) sp
      (by omega) ?_
    · rw [ih2]
      have hsl : sliceA tdoc (p - 1 + 1 - m) m ++ [charAt tdoc p] =
          sliceA tdoc (p + 1 - (m + 1)) (m + 1) := by
        rw [sliceA_succ]
        have hpos : charAt tdoc (p + 1 - (m + 1) + m) = charAt tdoc p := by
          have heq : p + 1 - (m + 1) + m = p := by omega
          rw [heq]
        rw [hpos]
        cases m with
        | zero => simp [sliceA]
        | succ m2 =>
          have heq : p - 1 + 1 - (m2 + 1) = p + 1 - (m2 + 1 + 1) := by omega
          rw [heq]
      rw [hsl]
    · intro k hk
      have h0 := hch k (by omega)
      have heq : p + 1 - (m + 1) + k = p - 1 + 1 - m + k := by omega
      rwa [heq] at h0

theorem tailBreak (tdoc : List Char) (r ptr : Nat) (st : ScanSt)
    (hw : st.words.length = 2) (hc : charAt tdoc ptr = ' ') (hr : 0 < r) :
    scanFold (seg tdoc r ptr) (st, false) = (st, true) := by
  match r, hr with
  | m + 1, _ =>
    show scanFold ((ptr, charAt tdoc ptr) :: seg tdoc m (ptr - 1)) _ = _
    simp [scanFold, hc, hw, scanFold_broken]

theorem needsEpenthesis_iff_spec (repl : List Char) :
    needsEpenthesis repl = true ↔ specNeedsAn repl := by
  induction repl with
  | nil => simp [needsEpenthesis, specNeedsAn]
  | cons c rest ih =>
    by_cases ha : c.isAlpha
    · have hf : List.find? (fun b => b.isAlpha || b.isDigit) (c :: rest) =
          some c := by
        rw [List.find?_cons]
        simp [ha]
      unfold specNeedsAn needsEpenthesis
      rw [hf]
      simp [ha]
    · by_cases hd : c.isDigit
      · have hf : List.find? (fun b => b.isAlpha || b.isDigit) (c :: rest) =
            some c := by
          rw [List.find?_cons]
          simp [hd]
        unfold specNeedsAn needsEpenthesis
        rw [hf]
        simp [ha, hd]
      · have hf : List.find? (fun b => b.isAlpha || b.isDigit) (c :: rest) =
            List.find? (fun b => b.isAlpha || b.isDigit) rest := by
          rw [List.find?_cons]
          simp [ha, hd]
        unfold specNeedsAn needsEpenthesis
        rw [hf, if_neg ha, if_neg hd]
        exact ih

/-- C9 (amended): the indefinite-article fixup in
SourceText._correct_indef_article rewrites the preceding word exactly when
that word reads "a" or "an" in any letter case, it is separated from the
redaction start by a run of spaces only, the article together with the space
run fits in the four-character scan window, and the article either starts the
window or is preceded by a further space.  The rewritten prefix chooses
between "a" and "an" by the first alphabetic or digit character of the
replacement text (a vowel, or the digit 8, demands "an"), copies the
article's case shape, and keeps the run of spaces; the returned index moves
back to the start of the article.  The spec's description ("word before the
insertion point", one separating space) misses the window clamp and the
multi-space gap behaviour. -/
theorem C9_article_correction (tdoc repl w : List Char) (i g L : Nat)
    (hw : w.map Char.toLower = ['a'] ∨ w.map Char.toLower = ['a', 'n'])
    (hL : w.length = L)
    (hg : 1 ≤ g) (hwin : g + L ≤ 4) (hi : g + L ≤ i)
    (hX : charAt tdoc i ≠ ' ')
    (hgap : ∀ k, i - g ≤ k → k < i → charAt tdoc k = ' ')
    (hart : sliceA tdoc (i - g - L) L = w)
    (hbound : i - g - L = 0 ∨ g + L = 4 ∨ charAt tdoc (i - g - L - 1) = ' ') :
    correct_indef_article tdoc repl i =
      ((if pyIsUpper w then
          (get_indefinite_article_for_text repl).map Char.toUpper
        else if headIsUpper w then
          pyCapitalize (get_indefinite_article_for_text repl)
        else get_indefinite_article_for_text repl) ++
        List.replicate g ' ' ++ repl, i - g - L) ∧
    (get_indefinite_article_for_text repl = ['a', 'n'] ↔ specNeedsAn repl) := by
  have hLen : w.length = 1 ∨ w.length = 2 := by
    rcases hw with h | h
    · left
      have h2 := congrArg List.length h
      simpa using h2
    · right
      have h2 := congrArg List.length h
      simpa using h2
  have hL1 : 1 ≤ L := by omega
  refine ⟨?_, ?_⟩
  · set r := i - (i - 4) + 1 - 1 - g - L with hrdef
    have hsplit : i - (i - 4) + 1 = 1 + (g + (L + r)) := by omega
    have hseg : seg tdoc (i - (i - 4) + 1) i =
        seg tdoc 1 i ++ (seg tdoc g (i - 1) ++
          (seg tdoc L (i - 1 - g) ++ seg tdoc r (i - 1 - g - L))) := by
      rw [hsplit]
      rw [seg_split tdoc 1 (g + (L + r)) i]
      rw [seg_split tdoc g (L + r) (i - 1)]
      rw [seg_split tdoc L r (i - 1 - g)]
    have h1 : scanFold (seg tdoc 1 i) ((⟨[], [], [], false⟩ : ScanSt), false) =
        (⟨[[charAt tdoc i]], [i + 1], [], true⟩, false) := by
      show scanFold [(i, charAt tdoc i)] _ = _
      simp only [scanFold, Bool.false_eq_true, if_false]
      rw [if_neg hX]
    have hgne : ¬ g = 0 := by omega
    have h2 : scanFold (seg tdoc g (i - 1))
        ((⟨[[charAt tdoc i]], [i + 1], [], true⟩ : ScanSt), false) =
        (⟨[[charAt tdoc i]], [i + 1], List.replicate g ' ', false⟩, false) := by
      have hg2 := gapRun tdoc g (i - 1) [charAt tdoc i] [i + 1] [] true ?_
      · rw [hg2]
        simp [hgne]
      · intro k hk
        exact hgap (i - 1 - k) (by omega) (by omega)
    have hch3 : ∀ k, k < L → charAt tdoc (i - 1 - g + 1 - L + k) ≠ ' ' := by
      intro k hk
      have hmem : charAt tdoc (i - g - L + k) ∈ w := by
        rw [← hart]
        unfold sliceA
        exact List.mem_map_of_mem _ (List.mem_range.mpr hk)
      have hne : charAt tdoc (i - g - L + k) ≠ ' ' := by
        intro hsp2
        have hmem2 : (charAt tdoc (i - g - L + k)).toLower ∈
            w.map Char.toLower := List.mem_map_of_mem _ hmem
        rw [hsp2] at hmem2
        have hlsp : (' ' : Char).toLower = ' ' := by decide
        rcases hw with h | h
        · rw [h, hlsp] at hmem2
          have h3 : (' ' : Char) = 'a' := by simpa using hmem2
          exact absurd h3 (by decide)
        · rw [h, hlsp] at hmem2
          have h3 : (' ' : Char) = 'a' ∨ (' ' : Char) = 'n' := by
            simpa using hmem2
          rcases h3 with h4 | h4
          · exact absurd h4 (by decide)
          · exact absurd h4 (by decide)
      have heq : i - 1 - g + 1 - L + k = i - g - L + k := by omega
      rw [heq]
      exact hne
    have h3 := wordRun tdoc L (i - 1 - g) hL1 (by omega) hch3
      [[charAt tdoc i]] [i + 1] (List.replicate g ' ')
    have hp1 : i - 1 - g + 1 - L = i - g - L := by omega
    have hp2 : i - 1 - g + 1 = i - g := by omega
    rw [hp1, hp2, hart] at h3
    obtain ⟨b4, h4⟩ : ∃ b, scanFold (seg tdoc r (i - 1 - g - L))
        ((⟨[w, [charAt tdoc i]], [i - g, i + 1],
          List.replicate g ' ', true⟩ : ScanSt), false) =
        (⟨[w, [charAt tdoc i]], [i - g, i + 1],
          List.replicate g ' ', true⟩, b) := by
      rcases Nat.eq_zero_or_pos r with hr0 | hrpos
      · refine ⟨false, ?_⟩
        rw [hr0]
        rfl
      · refine ⟨true, ?_⟩
        have ha0 : 0 < i - g - L := by omega
        have hsp3 : charAt tdoc (i - 1 - g - L) = ' ' := by
          rcases hbound with hb | hb | hb
          · exact absurd ha0 (by omega)
          · exact absurd hrpos (by omega)
          · have heq : i - 1 - g - L = i - g - L - 1 := by omega
            rw [heq]
            exact hb
        exact tailBreak tdoc r (i - 1 - g - L)
          ⟨[w, [charAt tdoc i]], [i - g, i + 1],
            List.replicate g ' ', true⟩ rfl hsp3 hrpos
    have hguard : ¬ (List.length [w, [charAt tdoc i]] < 2 ∨
        ¬ (w.map Char.toLower = ['a'] ∨ w.map Char.toLower = ['a', 'n'])) := by
      intro h
      rcases h with h | h
      · simp at h
      · exact h hw
    simp only [correct_indef_article]
    rw [hseg, scanFold_append, scanFold_append, scanFold_append, h1, h2, h3, h4]
    show (if [w, [charAt tdoc i]].length < 2 ∨
        ¬ (List.map Char.toLower w = ['a'] ∨
          List.map Char.toLower w = ['a', 'n'])
      then (repl, i)
      else ((if pyIsUpper w then
          List.map Char.toUpper (get_indefinite_article_for_text repl)
        else if headIsUpper w then
          pyCapitalize (get_indefinite_article_for_text repl)
        else get_indefinite_article_for_text repl) ++
        List.replicate g ' ' ++ repl, (i - g) - w.length)) = _
    rw [if_neg hguard]
    rw [Prod.mk.injEq]
    refine ⟨rfl, ?_⟩
    rw [hL]
  · unfold get_indefinite_article_for_text
    by_cases hne : needsEpenthesis repl
    · rw [if_pos hne]
      exact ⟨fun _ => (needsEpenthesis_iff_spec repl).mp hne, fun _ => rfl⟩
    · rw [if_neg hne]
      constructor
      · intro h
        exact absurd h (by decide)
      · intro h
        exact absurd ((needsEpenthesis_iff_spec repl).mpr h) hne

/-- C9 (counterexample): with three spaces between "an" and the redaction
start the word immediately preceding the redaction start is still the
article "an", yet _correct_indef_article returns the replacement text and
index unchanged — no rewrite and no leftward extension — because the scan
window only reaches four characters back. -/
theorem C9_counterexample :
    specPrecedingWord ['a', 'n', ' ', ' ', ' ', 'X'] 5 = some ['a', 'n'] ∧
    correct_indef_article ['a', 'n', ' ', ' ', ' ', 'X']
      ['a', 'p', 'p', 'l', 'e'] 5 = (['a', 'p', 'p', 'l', 'e'], 5) := by
  decide

/-- C9 (witness): on the text "An X" with the article one space before the
redaction at index 3 and replacement "rock", the correction rewrites the
prefix to "A rock" (consonant start keeps "a", initial capital preserved)
and moves the index back to 0, as the amended theorem states. -/
theorem C9_witness :
    correct_indef_article ['A', 'n', ' ', 'X'] ['r', 'o', 'c', 'k'] 3 =
      (['A', ' ', 'r', 'o', 'c', 'k'], 0) ∧
    ¬ specNeedsAn ['r', 'o', 'c', 'k'] := by
  have h := C9_article_correction ['A', 'n', ' ', 'X'] ['r', 'o', 'c', 'k']
    ['A', 'n'] 3 1 2 (by decide) (by decide) (by decide) (by decide)
    (by decide) (by decide)
    (by
      intro k h1 h2
      have hk : k = 2 := by omega
      subst hk
      decide)
    (by decide) (by decide)
  refine ⟨?_, ?_⟩
  · rw [h.1]
    decide
  · intro hs
    have h2 := h.2.mpr hs
    exact absurd h2 (by decide)
